import Mathlib

/-!
Shallow embedding of the finite group algebra engine (Set / Function /
Group / GroupFunction) and proofs of its specified properties.

The element collection of a group is modelled as a `List` (the iteration
order of the underlying hash set, with a `Nodup` invariant where it
matters), and every Python `dict` is modelled as an association list with
first-match lookup.  Fallible operations (raising paths) return `Option`
or `Except`.
-/

namespace PyAlg

/-- Association-list lookup, first match: models Python dict indexing
(`d[k]`, returning `none` where Python raises `KeyError`). -/
def alookup {K V : Type} [DecidableEq K] : List (K × V) → K → Option V
  | [], _ => none
  | (k, v) :: rest, q => if q = k then some v else alookup rest q

/-- All ordered pairs of two lists, in the order produced by
`itertools.product(l1, l2)`. -/
def listProd {A B : Type} : List A → List B → List (A × B)
  | [], _ => []
  | a :: r, l2 => l2.map (fun b => (a, b)) ++ listProd r l2

/-- The raw data handed to `Group.__init__`: an element set (as its
iteration sequence) and the `products` dict. -/
structure RawGroup (E : Type) where
  elements : List E
  products : List ((E × E) × E)
deriving DecidableEq

/-- The four distinct `ValueError` kinds raised by `Group.__init__`. -/
inductive GroupErr where
  | notClosed
  | noIdentity
  | notInvertible
  | notAssociative
deriving DecidableEq

variable {E : Type} [DecidableEq E]

/-- `Group.closed_under_products`: every dict entry only involves group
elements, and every ordered pair of elements is a dict key. -/
def closed_under_products (g : RawGroup E) : Bool :=
  g.products.all
    (fun kv => decide (kv.1.1 ∈ g.elements) && decide (kv.1.2 ∈ g.elements)
      && decide (kv.2 ∈ g.elements)) &&
  (listProd g.elements g.elements).all (fun p => (alookup g.products p).isSome)

/-- `Group.identity`: scan the elements in iteration order and return the
first two-sided absorbing element, if any. -/
def identityFind (g : RawGroup E) : Option E :=
  g.elements.find? (fun c =>
    g.elements.all (fun o =>
      alookup g.products (c, o) == some o && alookup g.products (o, c) == some o))

/-- The loop body of `Group.inverses`: walk the elements in iteration
order, recording for each one either the first previously recorded partner
whose value it is (the symmetric-caching shortcut), or the first element it
multiplies to the identity with; fail if neither exists. -/
def inversesLoop (g : RawGroup E) (e₀ : E) :
    List E → List (E × E) → Option (List (E × E))
  | [], acc => some acc
  | z :: rest, acc =>
    match acc.find? (fun p => p.2 == z) with
    | some p => inversesLoop g e₀ rest (acc ++ [(z, p.1)])
    | none =>
      match g.elements.find? (fun o => alookup g.products (z, o) == some e₀) with
      | some o => inversesLoop g e₀ rest (acc ++ [(z, o)])
      | none => none

/-- `Group.inverses`, given the already cached identity `e₀`. -/
def inversesFind (g : RawGroup E) (e₀ : E) : Option (List (E × E)) :=
  inversesLoop g e₀ g.elements []

/-- `Group.is_associative`: check all ordered triples. -/
def is_associative (g : RawGroup E) : Bool :=
  g.elements.all fun a => g.elements.all fun b => g.elements.all fun c =>
    ((alookup g.products (a, b)).bind (fun ab => alookup g.products (ab, c))) ==
    ((alookup g.products (b, c)).bind (fun bc => alookup g.products (a, bc)))

/-- `Group.__init__`: validate closure, identity, inverses and
associativity in that order, failing with the first check's error, and
cache the identity and the inverse table on success. -/
def mkGroup (g : RawGroup E) : Except GroupErr (E × List (E × E)) :=
  if closed_under_products g then
    match identityFind g with
    | some e₀ =>
      match inversesFind g e₀ with
      | some invs =>
        if is_associative g then Except.ok (e₀, invs)
        else Except.error GroupErr.notAssociative
      | none => Except.error GroupErr.notInvertible
    | none => Except.error GroupErr.noIdentity
  else Except.error GroupErr.notClosed

/-- Total version of the product table: the group operation.  The default
is never reached on pairs of group elements once closure holds. -/
def op (g : RawGroup E) (a b : E) : E :=
  (alookup g.products (a, b)).getD a

/-- Spec-side closure axiom: the table is total over `elements × elements`,
closed, and has no extraneous entries. -/
def closureAx (g : RawGroup E) : Prop :=
  (∀ kv ∈ g.products, kv.1.1 ∈ g.elements ∧ kv.1.2 ∈ g.elements ∧ kv.2 ∈ g.elements) ∧
  (∀ a ∈ g.elements, ∀ b ∈ g.elements, (alookup g.products (a, b)).isSome = true)

/-- `e₀` absorbs on both sides against every element. -/
def isIdentityEl (g : RawGroup E) (e₀ : E) : Prop :=
  ∀ x ∈ g.elements,
    alookup g.products (e₀, x) = some x ∧ alookup g.products (x, e₀) = some x

/-- Spec-side identity axiom: some element is a two-sided identity. -/
def identityAx (g : RawGroup E) : Prop :=
  ∃ e₀ ∈ g.elements, isIdentityEl g e₀

/-- Spec-side inverses axiom: every element has an inverse with respect to
the identity. -/
def inverseAx (g : RawGroup E) : Prop :=
  ∃ e₀ ∈ g.elements, isIdentityEl g e₀ ∧
    ∀ x ∈ g.elements, ∃ y ∈ g.elements, alookup g.products (x, y) = some e₀

/-- Spec-side associativity axiom. -/
def assocAx (g : RawGroup E) : Prop :=
  ∀ a ∈ g.elements, ∀ b ∈ g.elements, ∀ c ∈ g.elements,
    op g (op g a b) c = op g a (op g b c)

/-- The conjunction of the four group axioms. -/
def groupAxioms (g : RawGroup E) : Prop :=
  closureAx g ∧ identityAx g ∧ inverseAx g ∧ assocAx g

theorem alookup_some_mem {K V : Type} [DecidableEq K]
    {l : List (K × V)} {k : K} {v : V} (h : alookup l k = some v) : (k, v) ∈ l := by
  induction l with
  | nil => simp [alookup] at h
  | cons hd tl ih =>
    obtain ⟨k', v'⟩ := hd
    by_cases hk : k = k'
    · subst hk
      simp [alookup] at h
      subst h
      exact List.mem_cons_self _ _
    · simp [alookup, hk] at h
      exact List.mem_cons_of_mem _ (ih h)

theorem alookup_isSome_of_mem {K V : Type} [DecidableEq K]
    {l : List (K × V)} {k : K} {v : V} (h : (k, v) ∈ l) :
    (alookup l k).isSome = true := by
  induction l with
  | nil => simp at h
  | cons hd tl ih =>
    obtain ⟨k', v'⟩ := hd
    by_cases hk : k = k'
    · subst hk; simp [alookup]
    · simp [alookup, hk]
      rcases List.mem_cons.mp h with h1 | h2
      · exact absurd (congrArg Prod.fst h1) hk
      · exact ih h2

theorem mem_listProd {A B : Type} {l₁ : List A} {l₂ : List B} {p : A × B} :
    p ∈ listProd l₁ l₂ ↔ p.1 ∈ l₁ ∧ p.2 ∈ l₂ := by
  induction l₁ with
  | nil => simp [listProd]
  | cons a r ih =>
    simp only [listProd, List.mem_append, List.mem_map, ih, List.mem_cons]
    constructor
    · rintro (⟨b, hb, rfl⟩ | ⟨h1, h2⟩)
      · exact ⟨Or.inl rfl, hb⟩
      · exact ⟨Or.inr h1, h2⟩
    · rintro ⟨h1 | h1, h2⟩
      · exact Or.inl ⟨p.2, h2, by cases p; simp_all⟩
      · exact Or.inr ⟨h1, h2⟩

theorem closed_iff (g : RawGroup E) :
    closed_under_products g = true ↔ closureAx g := by
  unfold closed_under_products closureAx
  rw [Bool.and_eq_true, List.all_eq_true, List.all_eq_true]
  constructor
  · rintro ⟨h1, h2⟩
    refine ⟨fun kv hkv => ?_, fun a ha b hb => ?_⟩
    · have := h1 kv hkv
      simp only [Bool.and_eq_true, decide_eq_true_eq] at this
      exact ⟨this.1.1, this.1.2, this.2⟩
    · exact h2 (a, b) (mem_listProd.mpr ⟨ha, hb⟩)
  · rintro ⟨h1, h2⟩
    refine ⟨fun kv hkv => ?_, fun p hp => ?_⟩
    · have := h1 kv hkv
      simp only [Bool.and_eq_true, decide_eq_true_eq]
      exact ⟨⟨this.1, this.2.1⟩, this.2.2⟩
    · obtain ⟨hp1, hp2⟩ := mem_listProd.mp hp
      exact h2 p.1 hp1 p.2 hp2

theorem identityFind_some {g : RawGroup E} {e₀ : E}
    (h : identityFind g = some e₀) : e₀ ∈ g.elements ∧ isIdentityEl g e₀ := by
  refine ⟨List.mem_of_find?_eq_some h, ?_⟩
  have hp := List.find?_some h
  rw [List.all_eq_true] at hp
  intro x hx
  have := hp x hx
  simp only [Bool.and_eq_true, beq_iff_eq] at this
  exact this

theorem identityFind_isSome {g : RawGroup E} (h : identityAx g) :
    ∃ e₀, identityFind g = some e₀ := by
  obtain ⟨e₀, he, hid⟩ := h
  cases hfind : identityFind g with
  | some x => exact ⟨x, rfl⟩
  | none =>
    exfalso
    have := List.find?_eq_none.mp hfind e₀ he
    apply this
    rw [List.all_eq_true]
    intro o ho
    simp only [Bool.and_eq_true, beq_iff_eq]
    exact hid o ho

theorem identity_unique {g : RawGroup E} {e₁ e₂ : E}
    (h₁m : e₁ ∈ g.elements) (h₁ : isIdentityEl g e₁)
    (h₂m : e₂ ∈ g.elements) (h₂ : isIdentityEl g e₂) : e₁ = e₂ := by
  have ha := (h₁ e₂ h₂m).1
  have hb := (h₂ e₁ h₁m).2
  rw [ha] at hb
  exact ((Option.some.injEq _ _).mp hb).symm

theorem op_lookup {g : RawGroup E} (hcl : closureAx g) {a b : E}
    (ha : a ∈ g.elements) (hb : b ∈ g.elements) :
    alookup g.products (a, b) = some (op g a b) := by
  have := hcl.2 a ha b hb
  obtain ⟨v, hv⟩ := Option.isSome_iff_exists.mp this
  rw [op, hv]
  simp

theorem op_mem {g : RawGroup E} (hcl : closureAx g) {a b : E}
    (ha : a ∈ g.elements) (hb : b ∈ g.elements) : op g a b ∈ g.elements := by
  have hl := op_lookup hcl ha hb
  exact (hcl.1 _ (alookup_some_mem hl)).2.2

/-- Invariant of the `inverses` loop: every recorded pair is a pair of
group elements one of whose two products is the identity. -/
def invPairOk (g : RawGroup E) (e₀ : E) (p : E × E) : Prop :=
  p.1 ∈ g.elements ∧ p.2 ∈ g.elements ∧
    (alookup g.products (p.1, p.2) = some e₀ ∨ alookup g.products (p.2, p.1) = some e₀)

theorem inversesLoop_sound {g : RawGroup E} {e₀ : E} :
    ∀ {l : List E} {acc res : List (E × E)},
      inversesLoop g e₀ l acc = some res →
      (∀ z ∈ l, z ∈ g.elements) →
      (∀ p ∈ acc, invPairOk g e₀ p) →
      ∀ p ∈ res, invPairOk g e₀ p := by
  intro l
  induction l with
  | nil =>
    intro acc res h _ hacc
    simp only [inversesLoop] at h
    injection h with h
    subst h
    exact hacc
  | cons z rest ih =>
    intro acc res h hl hacc
    simp only [inversesLoop] at h
    cases hfind : acc.find? (fun p => p.2 == z) with
    | some p =>
      rw [hfind] at h
      refine ih h (fun x hx => hl x (List.mem_cons_of_mem _ hx)) ?_
      intro q hq
      rcases List.mem_append.mp hq with hq1 | hq2
      · exact hacc q hq1
      · have hp := hacc p (List.mem_of_find?_eq_some hfind)
        have hpz : p.2 = z := by
          have := List.find?_some hfind
          exact beq_iff_eq.mp this
        simp only [List.mem_singleton] at hq2
        subst hq2
        exact ⟨hl z (List.mem_cons_self _ _), hpz ▸ hp.1, (hpz ▸ hp.2.2).symm⟩
    | none =>
      rw [hfind] at h
      cases hfind2 : g.elements.find? (fun o => alookup g.products (z, o) == some e₀) with
      | some o =>
        rw [hfind2] at h
        refine ih h (fun x hx => hl x (List.mem_cons_of_mem _ hx)) ?_
        intro q hq
        rcases List.mem_append.mp hq with hq1 | hq2
        · exact hacc q hq1
        · simp only [List.mem_singleton] at hq2
          subst hq2
          refine ⟨hl z (List.mem_cons_self _ _), List.mem_of_find?_eq_some hfind2, ?_⟩
          have hp2 := List.find?_some hfind2
          exact Or.inl (beq_iff_eq.mp hp2)
      | none =>
        rw [hfind2] at h
        exact absurd h (by simp)

theorem inversesLoop_covers {g : RawGroup E} {e₀ : E} :
    ∀ {l : List E} {acc res : List (E × E)},
      inversesLoop g e₀ l acc = some res →
      ∀ z, (z ∈ l ∨ ∃ y, (z, y) ∈ acc) → ∃ y, (z, y) ∈ res := by
  intro l
  induction l with
  | nil =>
    intro acc res h z hz
    simp only [inversesLoop] at h
    injection h with h
    subst h
    rcases hz with hz | hz
    · simp at hz
    · exact hz
  | cons w rest ih =>
    intro acc res h z hz
    simp only [inversesLoop] at h
    have step : ∀ y₀ : E, inversesLoop g e₀ rest (acc ++ [(w, y₀)]) = some res →
        ∃ y, (z, y) ∈ res := by
      intro y₀ h₀
      refine ih h₀ z ?_
      rcases hz with hz | ⟨y, hy⟩
      · rcases List.mem_cons.mp hz with rfl | hz2
        · exact Or.inr ⟨y₀, List.mem_append.mpr (Or.inr (List.mem_singleton.mpr rfl))⟩
        · exact Or.inl hz2
      · exact Or.inr ⟨y, List.mem_append.mpr (Or.inl hy)⟩
    cases hfind3 : acc.find? (fun p => p.2 == w) with
    | some q =>
      rw [hfind3] at h
      exact step q.1 h
    | none =>
      rw [hfind3] at h
      cases hfind2 : g.elements.find? (fun o => alookup g.products (w, o) == some e₀) with
      | some o => rw [hfind2] at h; exact step o h
      | none => rw [hfind2] at h; exact absurd h (by simp)

theorem inversesLoop_complete {g : RawGroup E} {e₀ : E}
    (hinv : ∀ z ∈ g.elements, ∃ y ∈ g.elements, alookup g.products (z, y) = some e₀) :
    ∀ (l : List E), (∀ z ∈ l, z ∈ g.elements) →
      ∀ (acc : List (E × E)), ∃ res, inversesLoop g e₀ l acc = some res := by
  intro l
  induction l with
  | nil => intro _ acc; exact ⟨acc, rfl⟩
  | cons z rest ih =>
    intro hl acc
    simp only [inversesLoop]
    cases hfind : acc.find? (fun p => p.2 == z) with
    | some p => exact ih (fun x hx => hl x (List.mem_cons_of_mem _ hx)) _
    | none =>
      cases hfind2 : g.elements.find? (fun o => alookup g.products (z, o) == some e₀) with
      | some o => exact ih (fun x hx => hl x (List.mem_cons_of_mem _ hx)) _
      | none =>
        exfalso
        obtain ⟨y, hy, hzy⟩ := hinv z (hl z (List.mem_cons_self _ _))
        have := List.find?_eq_none.mp hfind2 y hy
        exact this (beq_iff_eq.mpr hzy)

/-- In a finite closed associative table with identity, a left-invertible
element is right-invertible. -/
theorem right_inv_of_left_inv {g : RawGroup E} (hcl : closureAx g)
    {e₀ : E} (he : e₀ ∈ g.elements) (hid : isIdentityEl g e₀)
    (hassoc : assocAx g) {z w : E} (hz : z ∈ g.elements) (hw : w ∈ g.elements)
    (hwz : op g w z = e₀) : ∃ y ∈ g.elements, op g z y = e₀ := by
  classical
  set s : Finset E := g.elements.toFinset with hs
  have hmem : ∀ x ∈ s, op g z x ∈ s := by
    intro x hx
    rw [hs, List.mem_toFinset] at *
    exact op_mem hcl hz hx
  have hinj : Set.InjOn (fun x => op g z x) ↑s := by
    intro a ha b hb hab
    rw [Finset.mem_coe, hs, List.mem_toFinset] at ha hb
    have hab2 : op g z a = op g z b := hab
    have h1 : op g w (op g z a) = op g w (op g z b) := by rw [hab2]
    have h2 : op g (op g w z) a = op g (op g w z) b := by
      rw [hassoc w hw z hz a ha, hassoc w hw z hz b hb]
      exact h1
    rw [hwz] at h2
    have ea := (hid a ha).1
    have eb := (hid b hb).1
    have hea : op g e₀ a = a := by rw [op, ea]; rfl
    have heb : op g e₀ b = b := by rw [op, eb]; rfl
    rw [hea, heb] at h2
    exact h2
  have himg : s.image (fun x => op g z x) ⊆ s := by
    intro y hy
    obtain ⟨x, hx, rfl⟩ := Finset.mem_image.mp hy
    exact hmem x hx
  have hcard : (s.image (fun x => op g z x)).card = s.card :=
    Finset.card_image_of_injOn hinj
  have heqs : s.image (fun x => op g z x) = s :=
    Finset.eq_of_subset_of_card_le himg (le_of_eq hcard.symm)
  have he₀s : e₀ ∈ s.image (fun x => op g z x) := by
    rw [heqs, hs, List.mem_toFinset]; exact he
  obtain ⟨y, hy, hzy⟩ := Finset.mem_image.mp he₀s
  rw [hs, List.mem_toFinset] at hy
  exact ⟨y, hy, hzy⟩

theorem assoc_of_check {g : RawGroup E} (hcl : closureAx g)
    (h : is_associative g = true) : assocAx g := by
  intro a ha b hb c hc
  rw [is_associative, List.all_eq_true] at h
  have h1 := h a ha
  rw [List.all_eq_true] at h1
  have h2 := h1 b hb
  rw [List.all_eq_true] at h2
  have h3 := beq_iff_eq.mp (h2 c hc)
  rw [op_lookup hcl ha hb, op_lookup hcl hb hc] at h3
  simp only [Option.bind_eq_bind, Option.some_bind] at h3
  rw [op_lookup hcl (op_mem hcl ha hb) hc, op_lookup hcl ha (op_mem hcl hb hc)] at h3
  exact (Option.some.injEq _ _).mp h3

theorem check_of_assoc {g : RawGroup E} (hcl : closureAx g)
    (h : assocAx g) : is_associative g = true := by
  rw [is_associative, List.all_eq_true]
  intro a ha
  rw [List.all_eq_true]
  intro b hb
  rw [List.all_eq_true]
  intro c hc
  rw [op_lookup hcl ha hb, op_lookup hcl hb hc]
  simp only [Option.bind_eq_bind, Option.some_bind]
  rw [op_lookup hcl (op_mem hcl ha hb) hc, op_lookup hcl ha (op_mem hcl hb hc),
    h a ha b hb c hc]
  exact beq_self_eq_true _

theorem mkGroup_ok_parts {g : RawGroup E} {e₀ : E} {invs : List (E × E)}
    (h : mkGroup g = Except.ok (e₀, invs)) :
    closureAx g ∧ (e₀ ∈ g.elements ∧ isIdentityEl g e₀) ∧
      inversesFind g e₀ = some invs ∧ assocAx g := by
  rw [mkGroup] at h
  by_cases hc : closed_under_products g = true
  · rw [if_pos hc] at h
    have hcl := (closed_iff g).mp hc
    cases hid : identityFind g with
    | none => simp only [hid] at h; exact absurd h (by simp)
    | some e₁ =>
      simp only [hid] at h
      cases hinv : inversesFind g e₁ with
      | none => simp only [hinv] at h; exact absurd h (by simp)
      | some invs₁ =>
        simp only [hinv] at h
        by_cases hassoc : is_associative g = true
        · rw [if_pos hassoc] at h
          have he : e₁ = e₀ := by
            have := congrArg (fun x => match x with
              | Except.ok (p : E × List (E × E)) => p.1
              | Except.error _ => e₁) h
            simpa using this
          have hi : invs₁ = invs := by
            have := congrArg (fun x => match x with
              | Except.ok (p : E × List (E × E)) => p.2
              | Except.error _ => invs₁) h
            simpa using this
          subst he; subst hi
          exact ⟨hcl, identityFind_some hid, hinv, assoc_of_check hcl hassoc⟩
        · rw [if_neg hassoc] at h; exact absurd h (by simp)
  · rw [if_neg hc] at h; exact absurd h (by simp)

theorem mkGroup_ok_of_axioms {g : RawGroup E} (h : groupAxioms g) :
    ∃ pr, mkGroup g = Except.ok pr := by
  obtain ⟨hcl, hidAx, hinvAx, hassocAx⟩ := h
  have hc : closed_under_products g = true := (closed_iff g).mpr hcl
  obtain ⟨e₁, hid⟩ := identityFind_isSome hidAx
  obtain ⟨he₁m, he₁⟩ := identityFind_some hid
  obtain ⟨e₂, he₂m, he₂, hinv₂⟩ := hinvAx
  have he12 : e₁ = e₂ := identity_unique he₁m he₁ he₂m he₂
  subst he12
  obtain ⟨invs, hinvs⟩ :=
    inversesLoop_complete hinv₂ g.elements (fun z hz => hz) []
  refine ⟨(e₁, invs), ?_⟩
  rw [mkGroup, if_pos hc]
  simp only [hid]
  rw [inversesFind] at *
  simp only [hinvs]
  rw [if_pos (check_of_assoc hcl hassocAx)]

theorem mkGroup_ok_iff (g : RawGroup E) :
    (∃ pr, mkGroup g = Except.ok pr) ↔ groupAxioms g := by
  constructor
  · rintro ⟨⟨e₀, invs⟩, h⟩
    obtain ⟨hcl, ⟨he₀m, he₀⟩, hinvs, hassoc⟩ := mkGroup_ok_parts h
    refine ⟨hcl, ⟨e₀, he₀m, he₀⟩, ⟨e₀, he₀m, he₀, ?_⟩, hassoc⟩
    intro z hz
    have hcov := inversesLoop_covers hinvs z (Or.inl hz)
    obtain ⟨y, hy⟩ := hcov
    have hsound := inversesLoop_sound hinvs (fun x hx => hx) (by simp) (z, y) hy
    obtain ⟨hzm, hym, hor⟩ := hsound
    rcases hor with hzy | hyz
    · exact ⟨y, hym, hzy⟩
    · have hyz2 : op g y z = e₀ := by rw [op, hyz]; rfl
      obtain ⟨y2, hy2m, hy2⟩ :=
        right_inv_of_left_inv hcl he₀m he₀ hassoc hzm hym hyz2
      refine ⟨y2, hy2m, ?_⟩
      rw [op_lookup hcl hzm hy2m, hy2]
  · exact mkGroup_ok_of_axioms

theorem mkGroup_notClosed_iff (g : RawGroup E) :
    mkGroup g = Except.error GroupErr.notClosed ↔ ¬ closureAx g := by
  constructor
  · intro h hcl
    rw [mkGroup, if_pos ((closed_iff g).mpr hcl)] at h
    cases hid : identityFind g with
    | none => simp only [hid] at h; exact absurd h (by simp)
    | some e₁ =>
      simp only [hid] at h
      cases hinv : inversesFind g e₁ with
      | none => simp only [hinv] at h; exact absurd h (by simp)
      | some invs₁ =>
        simp only [hinv] at h
        by_cases hassoc : is_associative g = true
        · rw [if_pos hassoc] at h; exact absurd h (by simp)
        · rw [if_neg hassoc] at h; exact absurd h (by simp)
  · intro hcl
    have hc : ¬ closed_under_products g = true := fun h2 => hcl ((closed_iff g).mp h2)
    rw [mkGroup, if_neg hc]

theorem mkGroup_noIdentity_iff (g : RawGroup E) :
    mkGroup g = Except.error GroupErr.noIdentity ↔ closureAx g ∧ ¬ identityAx g := by
  constructor
  · intro h
    by_cases hc : closed_under_products g = true
    · refine ⟨(closed_iff g).mp hc, ?_⟩
      rw [mkGroup, if_pos hc] at h
      cases hid : identityFind g with
      | none =>
        intro hax
        obtain ⟨e₁, he₁⟩ := identityFind_isSome hax
        rw [he₁] at hid
        exact absurd hid (by simp)
      | some e₁ =>
        simp only [hid] at h
        cases hinv : inversesFind g e₁ with
        | none => simp only [hinv] at h; exact absurd h (by simp)
        | some invs₁ =>
          simp only [hinv] at h
          by_cases hassoc : is_associative g = true
          · rw [if_pos hassoc] at h; exact absurd h (by simp)
          · rw [if_neg hassoc] at h; exact absurd h (by simp)
    · rw [mkGroup, if_neg hc] at h
      exact absurd h (by simp)
  · rintro ⟨hcl, hnid⟩
    rw [mkGroup, if_pos ((closed_iff g).mpr hcl)]
    cases hid : identityFind g with
    | none => simp only [hid]
    | some e₁ =>
      exfalso
      obtain ⟨he₁m, he₁⟩ := identityFind_some hid
      exact hnid ⟨e₁, he₁m, he₁⟩

theorem mkGroup_notInvertible_imp {g : RawGroup E}
    (h : mkGroup g = Except.error GroupErr.notInvertible) :
    closureAx g ∧ identityAx g ∧ ¬ inverseAx g := by
  by_cases hc : closed_under_products g = true
  · rw [mkGroup, if_pos hc] at h
    cases hid : identityFind g with
    | none => simp only [hid] at h; exact absurd h (by simp)
    | some e₁ =>
      simp only [hid] at h
      obtain ⟨he₁m, he₁⟩ := identityFind_some hid
      cases hinv : inversesFind g e₁ with
      | some invs₁ =>
        simp only [hinv] at h
        by_cases hassoc : is_associative g = true
        · rw [if_pos hassoc] at h; exact absurd h (by simp)
        · rw [if_neg hassoc] at h; exact absurd h (by simp)
      | none =>
        refine ⟨(closed_iff g).mp hc, ⟨e₁, he₁m, he₁⟩, ?_⟩
        rintro ⟨e₂, he₂m, he₂, hinv₂⟩
        have he12 : e₁ = e₂ := identity_unique he₁m he₁ he₂m he₂
        subst he12
        obtain ⟨invs, hinvs⟩ :=
          inversesLoop_complete hinv₂ g.elements (fun z hz => hz) []
        rw [inversesFind] at hinv
        rw [hinvs] at hinv
        exact absurd hinv (by simp)
  · rw [mkGroup, if_neg hc] at h
    exact absurd h (by simp)

theorem mkGroup_notAssociative_imp {g : RawGroup E}
    (h : mkGroup g = Except.error GroupErr.notAssociative) :
    closureAx g ∧ identityAx g ∧ ¬ assocAx g := by
  by_cases hc : closed_under_products g = true
  · rw [mkGroup, if_pos hc] at h
    have hcl := (closed_iff g).mp hc
    cases hid : identityFind g with
    | none => simp only [hid] at h; exact absurd h (by simp)
    | some e₁ =>
      simp only [hid] at h
      obtain ⟨he₁m, he₁⟩ := identityFind_some hid
      cases hinv : inversesFind g e₁ with
      | none => simp only [hinv] at h; exact absurd h (by simp)
      | some invs₁ =>
        simp only [hinv] at h
        by_cases hassoc : is_associative g = true
        · rw [if_pos hassoc] at h; exact absurd h (by simp)
        · exact ⟨hcl, ⟨e₁, he₁m, he₁⟩,
            fun hax => hassoc (check_of_assoc hcl hax)⟩
  · rw [mkGroup, if_neg hc] at h
    exact absurd h (by simp)

section ValidCalculus

variable {g : RawGroup E} {e₀ : E} {invs : List (E × E)}

theorem valid_closure (hv : mkGroup g = Except.ok (e₀, invs)) : closureAx g :=
  (mkGroup_ok_parts hv).1

theorem valid_e_mem (hv : mkGroup g = Except.ok (e₀, invs)) : e₀ ∈ g.elements :=
  (mkGroup_ok_parts hv).2.1.1

theorem valid_e_id (hv : mkGroup g = Except.ok (e₀, invs)) : isIdentityEl g e₀ :=
  (mkGroup_ok_parts hv).2.1.2

theorem valid_assoc (hv : mkGroup g = Except.ok (e₀, invs)) : assocAx g :=
  (mkGroup_ok_parts hv).2.2.2

theorem valid_op_mem (hv : mkGroup g = Except.ok (e₀, invs)) {a b : E}
    (ha : a ∈ g.elements) (hb : b ∈ g.elements) : op g a b ∈ g.elements :=
  op_mem (valid_closure hv) ha hb

theorem valid_one_op (hv : mkGroup g = Except.ok (e₀, invs)) {x : E}
    (hx : x ∈ g.elements) : op g e₀ x = x := by
  rw [op, (valid_e_id hv x hx).1]; rfl

theorem valid_op_one (hv : mkGroup g = Except.ok (e₀, invs)) {x : E}
    (hx : x ∈ g.elements) : op g x e₀ = x := by
  rw [op, (valid_e_id hv x hx).2]; rfl

theorem valid_right_inv (hv : mkGroup g = Except.ok (e₀, invs)) :
    ∀ x ∈ g.elements, ∃ y ∈ g.elements, op g x y = e₀ := by
  intro x hx
  have hax := (mkGroup_ok_iff g).mp ⟨_, hv⟩
  obtain ⟨e₂, he₂m, he₂id, hinv⟩ := hax.2.2.1
  have he : e₀ = e₂ := identity_unique (valid_e_mem hv) (valid_e_id hv) he₂m he₂id
  subst he
  obtain ⟨y, hym, hl⟩ := hinv x hx
  exact ⟨y, hym, by rw [op, hl]; rfl⟩

theorem valid_two_sided_inv (hv : mkGroup g = Except.ok (e₀, invs)) :
    ∀ x ∈ g.elements, ∃ y ∈ g.elements, op g x y = e₀ ∧ op g y x = e₀ := by
  intro x hx
  obtain ⟨y, hym, hxy⟩ := valid_right_inv hv x hx
  obtain ⟨z, hzm, hyz⟩ := valid_right_inv hv y hym
  have hassoc := valid_assoc hv
  have hz : z = x := by
    have h1 : op g (op g x y) z = op g x (op g y z) := hassoc x hx y hym z hzm
    rw [hxy, hyz, valid_one_op hv hzm, valid_op_one hv hx] at h1
    exact h1
  subst hz
  exact ⟨y, hym, hxy, hyz⟩

theorem valid_cancel_left (hv : mkGroup g = Except.ok (e₀, invs)) {a x y : E}
    (ha : a ∈ g.elements) (hx : x ∈ g.elements) (hy : y ∈ g.elements)
    (h : op g a x = op g a y) : x = y := by
  obtain ⟨b, hbm, _, hba⟩ := valid_two_sided_inv hv a ha
  have hassoc := valid_assoc hv
  have h1 : op g (op g b a) x = op g (op g b a) y := by
    rw [hassoc b hbm a ha x hx, hassoc b hbm a ha y hy, h]
  rw [hba, valid_one_op hv hx, valid_one_op hv hy] at h1
  exact h1

theorem valid_cancel_right (hv : mkGroup g = Except.ok (e₀, invs)) {a x y : E}
    (ha : a ∈ g.elements) (hx : x ∈ g.elements) (hy : y ∈ g.elements)
    (h : op g x a = op g y a) : x = y := by
  obtain ⟨b, hbm, hab, _⟩ := valid_two_sided_inv hv a ha
  have hassoc := valid_assoc hv
  have h1 : op g x (op g a b) = op g y (op g a b) := by
    rw [← hassoc x hx a ha b hbm, ← hassoc y hy a ha b hbm, h]
  rw [hab, valid_op_one hv hx, valid_op_one hv hy] at h1
  exact h1

/-- The cached inverse table is total on the elements and records genuine
two-sided inverses. -/
theorem valid_invs_lookup (hv : mkGroup g = Except.ok (e₀, invs)) :
    ∀ x ∈ g.elements, ∃ y, alookup invs x = some y ∧ y ∈ g.elements ∧
      op g x y = e₀ ∧ op g y x = e₀ := by
  intro x hx
  have hparts := mkGroup_ok_parts hv
  have hinvs : inversesLoop g e₀ g.elements [] = some invs := hparts.2.2.1
  obtain ⟨y₁, hy₁⟩ := inversesLoop_covers hinvs x (Or.inl hx)
  have hsome := alookup_isSome_of_mem hy₁
  obtain ⟨y, hy⟩ := Option.isSome_iff_exists.mp hsome
  have hmem := alookup_some_mem hy
  obtain ⟨hxm, hym, hor⟩ :=
    inversesLoop_sound hinvs (fun z hz => hz) (by simp) (x, y) hmem
  have honesided : op g x y = e₀ ∨ op g y x = e₀ := by
    rcases hor with h1 | h1
    · exact Or.inl (by rw [op, h1]; rfl)
    · exact Or.inr (by rw [op, h1]; rfl)
  obtain ⟨y₂, hy₂m, hxy₂, hy₂x⟩ := valid_two_sided_inv hv x hxm
  have hyy₂ : y = y₂ := by
    rcases honesided with h1 | h1
    · exact valid_cancel_left hv hxm hym hy₂m (by rw [h1, hxy₂])
    · exact valid_cancel_right hv hxm hym hy₂m (by rw [h1, hy₂x])
  subst hyy₂
  exact ⟨y, hy, hym, hxy₂, hy₂x⟩

end ValidCalculus

instance instDecEqExceptPA {ε α : Type} [DecidableEq ε] [DecidableEq α] :
    DecidableEq (Except ε α) := fun a b =>
  match a, b with
  | Except.ok x, Except.ok y =>
    if h : x = y then Decidable.isTrue (by rw [h])
    else Decidable.isFalse (fun hc => h (Except.ok.inj hc))
  | Except.ok _, Except.error _ => Decidable.isFalse (fun hc => Except.noConfusion hc)
  | Except.error _, Except.ok _ => Decidable.isFalse (fun hc => Except.noConfusion hc)
  | Except.error x, Except.error y =>
    if h : x = y then Decidable.isTrue (by rw [h])
    else Decidable.isFalse (fun hc => h (Except.error.inj hc))

instance decIsIdentityEl (g : RawGroup E) (e₀ : E) : Decidable (isIdentityEl g e₀) := by
  unfold isIdentityEl; infer_instance

instance decClosureAx (g : RawGroup E) : Decidable (closureAx g) := by
  unfold closureAx; infer_instance

instance decIdentityAx (g : RawGroup E) : Decidable (identityAx g) := by
  unfold identityAx; infer_instance

instance decInverseAx (g : RawGroup E) : Decidable (inverseAx g) := by
  unfold inverseAx; infer_instance

instance decAssocAx (g : RawGroup E) : Decidable (assocAx g) := by
  unfold assocAx; infer_instance

instance decGroupAxioms (g : RawGroup E) : Decidable (groupAxioms g) := by
  unfold groupAxioms; infer_instance

/-- The cyclic group of order 2: addition mod 2 on the set with the two
elements 0 and 1. -/
def z2 : RawGroup Nat :=
  ⟨[0, 1], [((0, 0), 0), ((0, 1), 1), ((1, 0), 1), ((1, 1), 0)]⟩

/-- A closed table with two-sided identity 0 in which the element 2 has no
inverse (no product with 2 on the left yields 0), yet 1 times 2 is 0, so the
symmetric-caching shortcut of the inverses check records 1 as the inverse of 2
and the check passes; associativity then necessarily fails. -/
def badInv : RawGroup Nat :=
  ⟨[0, 1, 2],
    [((0, 0), 0), ((0, 1), 1), ((0, 2), 2),
     ((1, 0), 1), ((1, 1), 1), ((1, 2), 0),
     ((2, 0), 2), ((2, 1), 1), ((2, 2), 2)]⟩

/-- C1: `Group(S, ∘)` succeeds and yields a group exactly when closure,
identity, inverses and associativity all hold; on failure, the `not closed`
and `no identity` errors characterise exactly the first violated axiom, and
the `not invertible` / `not associative` errors each imply all earlier
axioms hold and the corresponding axiom (invertibility, resp. associativity)
fails — but an invertibility violation may itself surface as the
associativity error (see the counterexample), so only these directions hold. -/
theorem c1_group_constructor (g : RawGroup E) :
    ((∃ pr, mkGroup g = Except.ok pr) ↔ groupAxioms g)
    ∧ (mkGroup g = Except.error GroupErr.notClosed ↔ ¬ closureAx g)
    ∧ (mkGroup g = Except.error GroupErr.noIdentity ↔ closureAx g ∧ ¬ identityAx g)
    ∧ (mkGroup g = Except.error GroupErr.notInvertible →
        closureAx g ∧ identityAx g ∧ ¬ inverseAx g)
    ∧ (mkGroup g = Except.error GroupErr.notAssociative →
        closureAx g ∧ identityAx g ∧ ¬ assocAx g) :=
  ⟨mkGroup_ok_iff g, mkGroup_notClosed_iff g, mkGroup_noIdentity_iff g,
    mkGroup_notInvertible_imp, mkGroup_notAssociative_imp⟩

/-- C1 witness: the cyclic group of order 2 satisfies the axioms, and the
constructor accordingly succeeds. -/
theorem c1_group_constructor_witness :
    groupAxioms z2 ∧ (∃ pr, mkGroup z2 = Except.ok pr) :=
  ⟨by decide, (c1_group_constructor z2).1.mpr (by decide)⟩

/-- C1 counterexample: on `badInv`, closure and identity hold while the
inverses axiom fails (2 has no inverse), so the first violated axiom in the
claimed check order is invertibility; yet the constructor raises the
`not associative` error, not the `not invertible` one. -/
theorem c1_counterexample :
    closureAx badInv ∧ identityAx badInv ∧ ¬ inverseAx badInv ∧
      mkGroup badInv = Except.error GroupErr.notAssociative ∧
      mkGroup badInv ≠ Except.error GroupErr.notInvertible := by
  refine ⟨by decide, by decide, by decide, by decide, by decide⟩

/-- The loop of `Group.__call__`: starting from the accumulated product,
check each argument's membership and multiply it in via the table. -/
def gcallAux (g : RawGroup E) : E → List E → Option E
  | acc, [] => some acc
  | acc, x :: rest =>
    if x ∈ g.elements then
      (alookup g.products (acc, x)).bind (fun p => gcallAux g p rest)
    else none

/-- `Group.__call__`: fold the arguments onto the cached identity. -/
def groupCall (g : RawGroup E) (xs : List E) : Option E :=
  match mkGroup g with
  | Except.ok (e₁, _) => gcallAux g e₁ xs
  | Except.error _ => none

theorem gcallAux_all_mem {g : RawGroup E} {e₀ : E} {invs : List (E × E)}
    (hv : mkGroup g = Except.ok (e₀, invs)) :
    ∀ (xs : List E) (acc : E), acc ∈ g.elements → (∀ x ∈ xs, x ∈ g.elements) →
      gcallAux g acc xs = some (xs.foldl (op g) acc) := by
  intro xs
  induction xs with
  | nil => intro acc _ _; rfl
  | cons x rest ih =>
    intro acc hacc hxs
    have hx : x ∈ g.elements := hxs x (List.mem_cons_self _ _)
    rw [gcallAux, if_pos hx, op_lookup (valid_closure hv) hacc hx]
    simp only [Option.some_bind]
    rw [ih (op g acc x) (valid_op_mem hv hacc hx)
      (fun y hy => hxs y (List.mem_cons_of_mem _ hy))]
    rfl

theorem gcallAux_none_iff {g : RawGroup E} {e₀ : E} {invs : List (E × E)}
    (hv : mkGroup g = Except.ok (e₀, invs)) :
    ∀ (xs : List E) (acc : E), acc ∈ g.elements →
      (gcallAux g acc xs = none ↔ ∃ x ∈ xs, x ∉ g.elements) := by
  intro xs
  induction xs with
  | nil =>
    intro acc _
    simp [gcallAux]
  | cons x rest ih =>
    intro acc hacc
    by_cases hx : x ∈ g.elements
    · rw [gcallAux, if_pos hx, op_lookup (valid_closure hv) hacc hx]
      simp only [Option.some_bind]
      rw [ih (op g acc x) (valid_op_mem hv hacc hx)]
      constructor
      · rintro ⟨y, hy, hyn⟩
        exact ⟨y, List.mem_cons_of_mem _ hy, hyn⟩
      · rintro ⟨y, hy, hyn⟩
        rcases List.mem_cons.mp hy with rfl | hy2
        · exact absurd hx hyn
        · exact ⟨y, hy2, hyn⟩
    · rw [gcallAux, if_neg hx]
      exact ⟨fun _ => ⟨x, List.mem_cons_self _ _, hx⟩, fun _ => rfl⟩

/-- C9: calling a valid group on zero arguments returns the identity; on a
list of group elements it returns their left fold under the group product
starting from the identity; and it fails exactly when some argument is not a
group element. -/
theorem c9_group_call (g : RawGroup E) (e₀ : E) (invs : List (E × E))
    (hv : mkGroup g = Except.ok (e₀, invs)) :
    groupCall g [] = some e₀
    ∧ (∀ xs : List E, (∀ x ∈ xs, x ∈ g.elements) →
        groupCall g xs = some (xs.foldl (op g) e₀))
    ∧ (∀ xs : List E, groupCall g xs = none ↔ ∃ x ∈ xs, x ∉ g.elements) := by
  have hgc : ∀ xs : List E, groupCall g xs = gcallAux g e₀ xs := by
    intro xs
    rw [groupCall, hv]
  refine ⟨by rw [hgc]; rfl, fun xs hxs => ?_, fun xs => ?_⟩
  · rw [hgc]
    exact gcallAux_all_mem hv xs e₀ (valid_e_mem hv) hxs
  · rw [hgc]
    exact gcallAux_none_iff hv xs e₀ (valid_e_mem hv)

/-- C9 witness: concrete calls on the cyclic group of order 2. -/
theorem c9_group_call_witness :
    groupCall z2 [1, 1, 1] = some 1 ∧ groupCall z2 [5] = none := by
  constructor
  · have h := (c9_group_call z2 0 [(0, 0), (1, 1)] (by decide)).2.1 [1, 1, 1] (by decide)
    rw [h]; rfl
  · exact ((c9_group_call z2 0 [(0, 0), (1, 1)] (by decide)).2.2 [5]).mpr (by decide)

/-- `Group.order()` with no argument: the cardinality of the element set. -/
def order (g : RawGroup E) : Nat := g.elements.length

/-- `x` multiplied by itself `k` times starting from the identity `e₀`
(so `pw g e₀ x 0 = e₀` and `pw g e₀ x (k+1) = pw g e₀ x k ∘ x`). -/
def pw (g : RawGroup E) (e₀ x : E) : Nat → E
  | 0 => e₀
  | k + 1 => op g (pw g e₀ x k) x

/-- `Group.order(x)`: scan `k = 1, …, n` (one candidate per element of the
group, via `enumerate`) and return the first `k` with `x` multiplied by
itself `k` times equal to the cached identity. -/
def order_element (g : RawGroup E) (x : E) : Option Nat :=
  match mkGroup g with
  | Except.ok (e₁, _) =>
    (List.range' 1 g.elements.length).find?
      (fun k => groupCall g (List.replicate k x) == some e₁)
  | Except.error _ => none

theorem foldl_replicate_pw (g : RawGroup E) (x : E) :
    ∀ (k : Nat) (acc : E), (List.replicate k x).foldl (op g) acc = pw g acc x k := by
  intro k
  induction k with
  | zero => intro acc; rfl
  | succ n ih =>
    intro acc
    have shift : ∀ m : Nat, pw g (op g acc x) x m = op g (pw g acc x m) x := by
      intro m
      induction m with
      | zero => rfl
      | succ m2 ih2 => rw [pw, ih2]; rfl
    rw [List.replicate_succ, List.foldl_cons, ih (op g acc x), shift n]
    rfl

theorem pw_mem {g : RawGroup E} {e₀ : E} {invs : List (E × E)}
    (hv : mkGroup g = Except.ok (e₀, invs)) {x : E} (hx : x ∈ g.elements) :
    ∀ k, pw g e₀ x k ∈ g.elements := by
  intro k
  induction k with
  | zero => exact valid_e_mem hv
  | succ n ih => exact valid_op_mem hv ih hx

theorem pw_add {g : RawGroup E} {e₀ : E} {invs : List (E × E)}
    (hv : mkGroup g = Except.ok (e₀, invs)) {x : E} (hx : x ∈ g.elements) :
    ∀ m n, pw g e₀ x (m + n) = op g (pw g e₀ x m) (pw g e₀ x n) := by
  intro m n
  induction n with
  | zero => rw [Nat.add_zero, pw, valid_op_one hv (pw_mem hv hx m)]
  | succ n2 ih =>
    rw [← Nat.add_assoc, pw, pw, ih,
      valid_assoc hv _ (pw_mem hv hx m) _ (pw_mem hv hx n2) x hx]

theorem groupCall_replicate {g : RawGroup E} {e₀ : E} {invs : List (E × E)}
    (hv : mkGroup g = Except.ok (e₀, invs)) {x : E} (hx : x ∈ g.elements) (k : Nat) :
    groupCall g (List.replicate k x) = some (pw g e₀ x k) := by
  rw [groupCall, hv]
  show gcallAux g e₀ (List.replicate k x) = some (pw g e₀ x k)
  rw [gcallAux_all_mem hv _ e₀ (valid_e_mem hv) (fun y hy => by
      rw [List.eq_of_mem_replicate hy]; exact hx),
    foldl_replicate_pw]

/-- Pigeonhole: some positive power `k ≤ n` of any element is the identity. -/
theorem pw_exists_identity {g : RawGroup E} {e₀ : E} {invs : List (E × E)}
    (hv : mkGroup g = Except.ok (e₀, invs)) (hnd : g.elements.Nodup)
    {x : E} (hx : x ∈ g.elements) :
    ∃ k, 1 ≤ k ∧ k ≤ g.elements.length ∧ pw g e₀ x k = e₀ := by
  classical
  set n := g.elements.length with hn
  have hcard : g.elements.toFinset.card = n := List.toFinset_card_of_nodup hnd
  have hmaps : ∀ i ∈ Finset.range (n + 1), pw g e₀ x (i + 1) ∈ g.elements.toFinset := by
    intro i _
    rw [List.mem_toFinset]
    exact pw_mem hv hx (i + 1)
  have hlt : g.elements.toFinset.card < (Finset.range (n + 1)).card := by
    rw [hcard, Finset.card_range]
    exact Nat.lt_succ_self n
  obtain ⟨i, hi, j, hj, hij, hpij⟩ :=
    Finset.exists_ne_map_eq_of_card_lt_of_maps_to hlt hmaps
  rw [Finset.mem_range] at hi hj
  rcases Nat.lt_or_ge i j with hlt2 | hge
  · refine ⟨j - i, Nat.le_sub_of_add_le (by omega), by omega, ?_⟩
    have hsplit : j + 1 = (i + 1) + (j - i) := by omega
    have h1 : pw g e₀ x (j + 1) = op g (pw g e₀ x (i + 1)) (pw g e₀ x (j - i)) := by
      rw [hsplit, pw_add hv hx]
    have h2 : op g (pw g e₀ x (i + 1)) (pw g e₀ x (j - i)) =
        op g (pw g e₀ x (i + 1)) e₀ := by
      rw [← h1, ← hpij, valid_op_one hv (pw_mem hv hx (i + 1))]
    exact valid_cancel_left hv (pw_mem hv hx (i + 1)) (pw_mem hv hx (j - i))
      (valid_e_mem hv) h2
  · have hlt3 : j < i := by omega
    refine ⟨i - j, Nat.le_sub_of_add_le (by omega), by omega, ?_⟩
    have hsplit : i + 1 = (j + 1) + (i - j) := by omega
    have h1 : pw g e₀ x (i + 1) = op g (pw g e₀ x (j + 1)) (pw g e₀ x (i - j)) := by
      rw [hsplit, pw_add hv hx]
    have h2 : op g (pw g e₀ x (j + 1)) (pw g e₀ x (i - j)) =
        op g (pw g e₀ x (j + 1)) e₀ := by
      rw [← h1, hpij, valid_op_one hv (pw_mem hv hx (j + 1))]
    exact valid_cancel_left hv (pw_mem hv hx (j + 1)) (pw_mem hv hx (i - j))
      (valid_e_mem hv) h2

theorem find?_range'_first {p : Nat → Bool} :
    ∀ (n s k : Nat), (List.range' s n).find? p = some k →
      p k = true ∧ s ≤ k ∧ k < s + n ∧ ∀ j, s ≤ j → j < k → p j = false := by
  intro n
  induction n with
  | zero => intro s k h; simp [List.range'] at h
  | succ n2 ih =>
    intro s k h
    rw [List.range'_succ] at h
    by_cases hp : p s = true
    · rw [List.find?_cons_of_pos _ hp] at h
      injection h with h
      subst h
      exact ⟨hp, Nat.le_refl _, by omega, fun j h1 h2 => absurd (by omega : s ≤ j ∧ j < s) (by omega)⟩
    · rw [List.find?_cons_of_neg _ hp] at h
      obtain ⟨h1, h2, h3, h4⟩ := ih (s + 1) k h
      refine ⟨h1, by omega, by omega, fun j hj1 hj2 => ?_⟩
      rcases Nat.eq_or_lt_of_le hj1 with rfl | hj3
      · exact Bool.not_eq_true _ ▸ (by simpa using hp)
      · exact h4 j (by omega) hj2

/-- C7: `order()` with no argument is the cardinality of the element set;
`order(x)` returns the least positive `k` with `x` multiplied by itself `k`
times equal to the identity, and that `k` is at most the group order. -/
theorem c7_order (g : RawGroup E) (e₀ : E) (invs : List (E × E))
    (hv : mkGroup g = Except.ok (e₀, invs)) (hnd : g.elements.Nodup)
    (x : E) (hx : x ∈ g.elements) :
    order g = g.elements.toFinset.card
    ∧ ∃ k, order_element g x = some k ∧ 0 < k ∧ pw g e₀ x k = e₀
      ∧ (∀ j, 0 < j → j < k → pw g e₀ x j ≠ e₀) ∧ k ≤ order g := by
  refine ⟨(List.toFinset_card_of_nodup hnd).symm, ?_⟩
  have hoe : order_element g x =
      (List.range' 1 g.elements.length).find?
        (fun k => groupCall g (List.replicate k x) == some e₀) := by
    rw [order_element, hv]
  have hpred : ∀ k, (groupCall g (List.replicate k x) == some e₀) = true ↔
      pw g e₀ x k = e₀ := by
    intro k
    rw [groupCall_replicate hv hx k, beq_iff_eq, Option.some_inj]
  obtain ⟨k₁, hk₁1, hk₁n, hk₁e⟩ := pw_exists_identity hv hnd hx
  cases hfind : (List.range' 1 g.elements.length).find?
      (fun k => groupCall g (List.replicate k x) == some e₀) with
  | none =>
    exfalso
    have := List.find?_eq_none.mp hfind k₁ (List.mem_range'_1.mpr ⟨hk₁1, by omega⟩)
    exact this ((hpred k₁).mpr hk₁e)
  | some k =>
    obtain ⟨hpk, hk1, hkn, hmin⟩ := find?_range'_first _ 1 k hfind
    refine ⟨k, by rw [hoe, hfind], by omega, (hpred k).mp hpk, ?_, by
      rw [order]; omega⟩
    intro j hj1 hj2 hje
    have := hmin j (by omega) hj2
    rw [← Bool.not_eq_true] at this
    exact this ((hpred j).mpr hje)

/-- C7 witness: in the cyclic group of order 2 the element 1 has order 2. -/
theorem c7_order_witness :
    order z2 = z2.elements.toFinset.card
    ∧ ∃ k, order_element z2 1 = some k ∧ 0 < k ∧ pw z2 0 1 k = 0
      ∧ (∀ j, 0 < j → j < k → pw z2 0 1 j ≠ 0) ∧ k ≤ order z2 :=
  c7_order z2 0 [(0, 0), (1, 1)] (by decide) (by decide) 1 (by decide)

/-- The data of a `Function` between two Sets: the mapping dict and the
domain and codomain element collections. -/
structure FuncS (A B : Type) where
  mapping : List (A × B)
  domain : List A
  codomain : List B

variable {A B : Type} [DecidableEq A] [DecidableEq B]

/-- The checks run by `Function.__init__`: every domain point is mapped,
every mapping key is in the domain and every mapping value in the
codomain. -/
def function_valid (fn : FuncS A B) : Bool :=
  fn.domain.all (fun p => decide (p ∈ fn.mapping.map Prod.fst)) &&
  fn.mapping.all (fun kv => decide (kv.1 ∈ fn.domain) && decide (kv.2 ∈ fn.codomain))

/-- `Function.is_injective`: every fiber over an attained value is a
singleton; `none` models the raise inside `fiber` when some attained value
is outside the codomain. -/
def is_injective (fn : FuncS A B) : Option Bool :=
  if fn.mapping.all (fun kv => decide (kv.2 ∈ fn.codomain)) then
    some ((fn.mapping.map Prod.snd).all (fun v =>
      ((fn.mapping.map Prod.fst).filter
        (fun k => alookup fn.mapping k == some v)).toFinset.card == 1))
  else none

/-- `Function.is_surjective`: every codomain value is attained. -/
def is_surjective (fn : FuncS A B) : Bool :=
  fn.codomain.all (fun v => decide (v ∈ fn.mapping.map Prod.snd))

/-- `Function.is_bijective` (`is_injective and is_surjective`). -/
def is_bijective (fn : FuncS A B) : Option Bool :=
  (is_injective fn).map (fun i => i && is_surjective fn)

/-- `Function.inverse`: raise `not invertible` (the `Except.error`) when not
bijective, otherwise swap every key and value and rebuild a Function with
domain and codomain exchanged; `none` models any other raise. -/
def function_inverse (fn : FuncS A B) : Option (Except Unit (FuncS B A)) :=
  match is_bijective fn with
  | none => none
  | some false => some (Except.error ())
  | some true =>
    if function_valid ⟨fn.mapping.map (fun kv => (kv.2, kv.1)), fn.codomain, fn.domain⟩ then
      some (Except.ok ⟨fn.mapping.map (fun kv => (kv.2, kv.1)), fn.codomain, fn.domain⟩)
    else none

/-- Mathematical injectivity of the function determined by the mapping. -/
def InjectiveProp (fn : FuncS A B) : Prop :=
  ∀ x ∈ fn.domain, ∀ y ∈ fn.domain,
    alookup fn.mapping x = alookup fn.mapping y → x = y

/-- Mathematical surjectivity onto the codomain. -/
def SurjectiveProp (fn : FuncS A B) : Prop :=
  ∀ v ∈ fn.codomain, ∃ x ∈ fn.domain, alookup fn.mapping x = some v

instance decInjectiveProp (fn : FuncS A B) : Decidable (InjectiveProp fn) := by
  unfold InjectiveProp; infer_instance

instance decSurjectiveProp (fn : FuncS A B) : Decidable (SurjectiveProp fn) := by
  unfold SurjectiveProp; infer_instance

theorem alookup_of_mem_nodup {K V : Type} [DecidableEq K]
    {m : List (K × V)} (hk : (m.map Prod.fst).Nodup) {k : K} {v : V}
    (h : (k, v) ∈ m) : alookup m k = some v := by
  induction m with
  | nil => simp at h
  | cons hd tl ih =>
    obtain ⟨k', v'⟩ := hd
    rw [List.map_cons, List.nodup_cons] at hk
    rcases List.mem_cons.mp h with h1 | h2
    · have hk1 : k = k' := congrArg Prod.fst h1
      have hv1 : v = v' := congrArg Prod.snd h1
      rw [alookup, if_pos hk1, hv1]
    · have hkk : k ≠ k' := by
        intro he
        subst he
        exact hk.1 (List.mem_map.mpr ⟨(k, v), h2, rfl⟩)
      rw [alookup, if_neg hkk]
      exact ih hk.2 h2

/-- For a validly constructed function, application is total on the domain
and lands in the codomain. -/
theorem apply_total {fn : FuncS A B} (hfv : function_valid fn = true) :
    ∀ x ∈ fn.domain, ∃ v, alookup fn.mapping x = some v ∧ v ∈ fn.codomain := by
  intro x hx
  rw [function_valid, Bool.and_eq_true, List.all_eq_true, List.all_eq_true] at hfv
  have hkey := hfv.1 x hx
  rw [decide_eq_true_eq, List.mem_map] at hkey
  obtain ⟨kv, hkv, hfst⟩ := hkey
  have hsome : (alookup fn.mapping x).isSome = true := by
    obtain ⟨k, v⟩ := kv
    cases hfst
    exact alookup_isSome_of_mem hkv
  obtain ⟨v, hv⟩ := Option.isSome_iff_exists.mp hsome
  have hmem := alookup_some_mem hv
  have := hfv.2 _ hmem
  rw [Bool.and_eq_true, decide_eq_true_eq, decide_eq_true_eq] at this
  exact ⟨v, hv, this.2⟩

theorem mapping_key_mem_domain {fn : FuncS A B} (hfv : function_valid fn = true) :
    ∀ kv ∈ fn.mapping, kv.1 ∈ fn.domain ∧ kv.2 ∈ fn.codomain := by
  intro kv hkv
  rw [function_valid, Bool.and_eq_true, List.all_eq_true, List.all_eq_true] at hfv
  have := hfv.2 kv hkv
  rw [Bool.and_eq_true, decide_eq_true_eq, decide_eq_true_eq] at this
  exact this

theorem is_injective_spec {fn : FuncS A B} (hfv : function_valid fn = true)
    (hk : (fn.mapping.map Prod.fst).Nodup) :
    is_injective fn = some (decide (InjectiveProp fn)) := by
  rw [is_injective, if_pos]
  · congr 1
    by_cases hinj : InjectiveProp fn
    · rw [decide_eq_true hinj]
      rw [List.all_eq_true]
      intro v hv
      rw [List.mem_map] at hv
      obtain ⟨kv, hkv, hsnd⟩ := hv
      have hfiber : ((fn.mapping.map Prod.fst).filter
          (fun k => alookup fn.mapping k == some v)).toFinset = {kv.1} := by
        ext z
        rw [List.mem_toFinset, List.mem_filter, Finset.mem_singleton]
        constructor
        · rintro ⟨hz, hlz⟩
          rw [beq_iff_eq] at hlz
          have hz2 : z ∈ fn.domain := by
            rw [List.mem_map] at hz
            obtain ⟨kw, hkw, hfz⟩ := hz
            cases hfz
            exact (mapping_key_mem_domain hfv kw hkw).1
          have hk1 : kv.1 ∈ fn.domain := (mapping_key_mem_domain hfv kv hkv).1
          refine hinj z hz2 kv.1 hk1 ?_
          rw [hlz, alookup_of_mem_nodup hk (hsnd ▸ hkv : (kv.1, v) ∈ fn.mapping)]
        · rintro rfl
          refine ⟨List.mem_map.mpr ⟨kv, hkv, rfl⟩, ?_⟩
          rw [beq_iff_eq]
          exact alookup_of_mem_nodup hk (hsnd ▸ hkv : (kv.1, v) ∈ fn.mapping)
      rw [hfiber]
      rfl
    · rw [decide_eq_false hinj]
      rw [InjectiveProp] at hinj
      push_neg at hinj
      obtain ⟨x, hx, y, hy, hlxy, hxy⟩ := hinj
      obtain ⟨v, hvx, _⟩ := apply_total hfv x hx
      have hvy : alookup fn.mapping y = some v := by rw [← hlxy, hvx]
      rw [Bool.eq_false_iff]
      intro hall
      rw [List.all_eq_true] at hall
      have hvmem : v ∈ fn.mapping.map Prod.snd :=
        List.mem_map.mpr ⟨(x, v), alookup_some_mem hvx, rfl⟩
      have hcard := hall v hvmem
      rw [beq_iff_eq] at hcard
      have hxz : x ∈ ((fn.mapping.map Prod.fst).filter
          (fun k => alookup fn.mapping k == some v)).toFinset := by
        rw [List.mem_toFinset, List.mem_filter]
        exact ⟨List.mem_map.mpr ⟨(x, v), alookup_some_mem hvx, rfl⟩, beq_iff_eq.mpr hvx⟩
      have hyz : y ∈ ((fn.mapping.map Prod.fst).filter
          (fun k => alookup fn.mapping k == some v)).toFinset := by
        rw [List.mem_toFinset, List.mem_filter]
        exact ⟨List.mem_map.mpr ⟨(y, v), alookup_some_mem hvy, rfl⟩, beq_iff_eq.mpr hvy⟩
      have h2 : ({x, y} : Finset A) ⊆ ((fn.mapping.map Prod.fst).filter
          (fun k => alookup fn.mapping k == some v)).toFinset := by
        intro z hz
        rcases Finset.mem_insert.mp hz with rfl | hz2
        · exact hxz
        · rw [Finset.mem_singleton] at hz2; subst hz2; exact hyz
      have h3 := Finset.card_le_card h2
      rw [Finset.card_insert_of_not_mem (by simpa using hxy), Finset.card_singleton,
        hcard] at h3
      omega
  · rw [List.all_eq_true]
    intro kv hkv
    rw [decide_eq_true_eq]
    exact (mapping_key_mem_domain hfv kv hkv).2

theorem is_surjective_spec {fn : FuncS A B} (hfv : function_valid fn = true)
    (hk : (fn.mapping.map Prod.fst).Nodup) :
    is_surjective fn = decide (SurjectiveProp fn) := by
  by_cases hs : SurjectiveProp fn
  · rw [decide_eq_true hs, is_surjective, List.all_eq_true]
    intro v hv
    rw [decide_eq_true_eq]
    obtain ⟨x, _, hlx⟩ := hs v hv
    exact List.mem_map.mpr ⟨(x, v), alookup_some_mem hlx, rfl⟩
  · rw [decide_eq_false hs, is_surjective]
    rw [Bool.eq_false_iff]
    intro hall
    rw [List.all_eq_true] at hall
    apply hs
    intro v hv
    have := hall v hv
    rw [decide_eq_true_eq, List.mem_map] at this
    obtain ⟨kv, hkv, hsnd⟩ := this
    refine ⟨kv.1, (mapping_key_mem_domain hfv kv hkv).1, ?_⟩
    exact alookup_of_mem_nodup hk (hsnd ▸ hkv : (kv.1, v) ∈ fn.mapping)

theorem is_bijective_spec {fn : FuncS A B} (hfv : function_valid fn = true)
    (hk : (fn.mapping.map Prod.fst).Nodup) :
    is_bijective fn = some (decide (InjectiveProp fn ∧ SurjectiveProp fn)) := by
  rw [is_bijective, is_injective_spec hfv hk]
  simp only [Option.map_some']
  rw [is_surjective_spec hfv hk]
  congr 1
  by_cases h1 : InjectiveProp fn <;> by_cases h2 : SurjectiveProp fn <;>
    simp [h1, h2]

/-- The swapped mapping of a valid surjective function passes the
`Function` constructor checks with domain and codomain exchanged. -/
theorem swapped_valid {fn : FuncS A B} (hfv : function_valid fn = true)
    (hs : SurjectiveProp fn) :
    function_valid ⟨fn.mapping.map (fun kv => (kv.2, kv.1)),
      fn.codomain, fn.domain⟩ = true := by
  rw [function_valid, Bool.and_eq_true, List.all_eq_true, List.all_eq_true]
  constructor
  · intro v hv
    rw [decide_eq_true_eq]
    obtain ⟨x, _, hlx⟩ := hs v hv
    rw [List.map_map]
    exact List.mem_map.mpr ⟨(x, v), alookup_some_mem hlx, rfl⟩
  · intro kv2 hkv2
    rw [List.mem_map] at hkv2
    obtain ⟨kv, hkv, hswap⟩ := hkv2
    have := mapping_key_mem_domain hfv kv hkv
    rw [Bool.and_eq_true, decide_eq_true_eq, decide_eq_true_eq, ← hswap]
    exact ⟨this.2, this.1⟩

/-- C8: for a validly constructed Function, requesting the inverse raises
exactly when the function is not bijective; when it is bijective, the
inverse is the Function whose mapping swaps every key and value, with
domain and codomain exchanged. -/
theorem c8_function_inverse (fn : FuncS A B)
    (hfv : function_valid fn = true) (hk : (fn.mapping.map Prod.fst).Nodup) :
    (function_inverse fn = some (Except.error ()) ↔
      ¬ (InjectiveProp fn ∧ SurjectiveProp fn))
    ∧ ((InjectiveProp fn ∧ SurjectiveProp fn) →
      function_inverse fn = some (Except.ok
        ⟨fn.mapping.map (fun kv => (kv.2, kv.1)), fn.codomain, fn.domain⟩)) := by
  have hbij := is_bijective_spec hfv hk
  by_cases hI : InjectiveProp fn ∧ SurjectiveProp fn
  · rw [decide_eq_true hI] at hbij
    have hres : function_inverse fn = some (Except.ok
        ⟨fn.mapping.map (fun kv => (kv.2, kv.1)), fn.codomain, fn.domain⟩) := by
      rw [function_inverse, hbij]
      simp only [if_pos (swapped_valid hfv hI.2)]
    refine ⟨?_, fun _ => hres⟩
    rw [hres]
    constructor
    · intro h
      exact absurd (Option.some.inj h) (by simp)
    · intro h
      exact absurd hI h
  · rw [decide_eq_false hI] at hbij
    have hres : function_inverse fn = some (Except.error ()) := by
      rw [function_inverse, hbij]
    exact ⟨by rw [hres]; exact ⟨fun _ => hI, fun _ => rfl⟩, fun h2 => absurd h2 hI⟩

/-- A concrete bijective function between two 2-element sets. -/
def fn8 : FuncS Nat Nat := ⟨[(0, 10), (1, 11)], [0, 1], [10, 11]⟩

/-- A concrete non-bijective function. -/
def fn9 : FuncS Nat Nat := ⟨[(0, 10), (1, 10)], [0, 1], [10, 11]⟩

/-- C8 witness: the inverse of a concrete bijection is its swapped mapping,
and a concrete non-bijection raises `not invertible`. -/
theorem c8_function_inverse_witness :
    function_inverse fn8 = some (Except.ok
      ⟨fn8.mapping.map (fun kv => (kv.2, kv.1)), fn8.codomain, fn8.domain⟩)
    ∧ function_inverse fn9 = some (Except.error ()) :=
  ⟨(c8_function_inverse fn8 (by decide) (by decide)).2 ⟨by decide, by decide⟩,
    (c8_function_inverse fn9 (by decide) (by decide)).1.mpr (by decide)⟩

/-- The data of a `GroupFunction`: a mapping dict between two Groups. -/
structure GroupFun (E F : Type) where
  mapping : List (E × F)
  domain : RawGroup E
  codomain : RawGroup F

variable {F : Type} [DecidableEq F]

/-- A `GroupFunction` viewed as a plain `Function` (its inherited part). -/
def toFuncS (f : GroupFun E F) : FuncS E F :=
  ⟨f.mapping, f.domain.elements, f.codomain.elements⟩

/-- `GroupFunction.is_homomorphism`: for all ordered pairs of domain
elements, the image of the product equals the product of the images. -/
def is_homomorphism (f : GroupFun E F) : Bool :=
  (listProd f.domain.elements f.domain.elements).all (fun ab =>
    ((groupCall f.domain [ab.1, ab.2]).bind (fun d => alookup f.mapping d)) ==
    ((alookup f.mapping ab.1).bind (fun fa => (alookup f.mapping ab.2).bind (fun fb =>
      groupCall f.codomain [fa, fb]))))

/-- `GroupFunction.inverse`: requires bijectivity, swaps the mapping and
rebuilds a GroupFunction with domain and codomain exchanged (running the
constructor checks); `none` models every raising path. -/
def group_fun_inverse (f : GroupFun E F) : Option (GroupFun F E) :=
  match is_bijective (toFuncS f) with
  | none => none
  | some false => none
  | some true =>
    if function_valid ⟨f.mapping.map (fun kv => (kv.2, kv.1)),
        f.codomain.elements, f.domain.elements⟩ then
      some ⟨f.mapping.map (fun kv => (kv.2, kv.1)), f.codomain, f.domain⟩
    else none

/-- `GroupFunction.is_isomorphism`: bijective, homomorphism, and the
computed inverse is a homomorphism, checked in that order. -/
def is_isomorphism (f : GroupFun E F) : Option Bool :=
  match is_bijective (toFuncS f) with
  | none => none
  | some false => some false
  | some true =>
    if is_homomorphism f then
      (group_fun_inverse f).map (fun fi => is_homomorphism fi)
    else some false

theorem groupCall_pair {g : RawGroup E} {e₀ : E} {invs : List (E × E)}
    (hv : mkGroup g = Except.ok (e₀, invs)) {a b : E}
    (ha : a ∈ g.elements) (hb : b ∈ g.elements) :
    groupCall g [a, b] = some (op g a b) := by
  rw [groupCall, hv]
  show gcallAux g e₀ [a, b] = some (op g a b)
  rw [gcallAux_all_mem hv [a, b] e₀ (valid_e_mem hv) (by
    intro x hx
    rcases List.mem_cons.mp hx with rfl | hx2
    · exact ha
    · rw [List.mem_singleton] at hx2; subst hx2; exact hb)]
  rw [List.foldl_cons, List.foldl_cons, List.foldl_nil, valid_one_op hv ha]

theorem swap_lookup {f : GroupFun E F} (hfv : function_valid (toFuncS f) = true)
    (hk : (f.mapping.map Prod.fst).Nodup) (hinj : InjectiveProp (toFuncS f))
    {a : F} {x : E} (hx : x ∈ f.domain.elements)
    (hax : alookup f.mapping x = some a) :
    alookup (f.mapping.map (fun kv => (kv.2, kv.1))) a = some x := by
  have hmem : ((a, x) : F × E) ∈ f.mapping.map (fun kv => (kv.2, kv.1)) :=
    List.mem_map.mpr ⟨(x, a), alookup_some_mem hax, rfl⟩
  have hsome := alookup_isSome_of_mem hmem
  obtain ⟨x', hx'⟩ := Option.isSome_iff_exists.mp hsome
  have hmem' := alookup_some_mem hx'
  rw [List.mem_map] at hmem'
  obtain ⟨kv, hkv, hswap⟩ := hmem'
  have hfst : kv.2 = a := congrArg Prod.fst hswap
  have hsnd : kv.1 = x' := congrArg Prod.snd hswap
  have hlx' : alookup f.mapping x' = some a := by
    rw [← hsnd, ← hfst]
    exact alookup_of_mem_nodup hk (by cases kv; exact hkv)
  have hx'd : x' ∈ f.domain.elements := by
    have := mapping_key_mem_domain hfv (x', a) (alookup_some_mem hlx')
    exact this.1
  have : x' = x := hinj x' hx'd x hx (by
    show alookup f.mapping x' = alookup f.mapping x
    rw [hlx', hax])
  rw [hx', this]

theorem hom_apply {f : GroupFun E F} {e₀ : E} {invs : List (E × E)}
    {e₁ : F} {invs₁ : List (F × F)}
    (hvD : mkGroup f.domain = Except.ok (e₀, invs))
    (hvC : mkGroup f.codomain = Except.ok (e₁, invs₁))
    (hfv : function_valid (toFuncS f) = true)
    (hhom : is_homomorphism f = true) {x y : E} {a b : F}
    (hx : x ∈ f.domain.elements) (hy : y ∈ f.domain.elements)
    (hfa : alookup f.mapping x = some a) (hfb : alookup f.mapping y = some b) :
    alookup f.mapping (op f.domain x y) = some (op f.codomain a b) := by
  rw [is_homomorphism, List.all_eq_true] at hhom
  have hpred := hhom (x, y) (mem_listProd.mpr ⟨hx, hy⟩)
  rw [beq_iff_eq] at hpred
  have ha : a ∈ f.codomain.elements :=
    (mapping_key_mem_domain hfv (x, a) (alookup_some_mem hfa)).2
  have hb : b ∈ f.codomain.elements :=
    (mapping_key_mem_domain hfv (y, b) (alookup_some_mem hfb)).2
  rw [groupCall_pair hvD hx hy, hfa, hfb] at hpred
  simp only [Option.bind_eq_bind, Option.some_bind] at hpred
  rw [groupCall_pair hvC ha hb] at hpred
  exact hpred

/-- If `f` is a bijective homomorphism between valid groups, the swapped
mapping is a homomorphism from the codomain group to the domain group. -/
theorem inverse_is_homomorphism {f : GroupFun E F} {e₀ : E} {invs : List (E × E)}
    {e₁ : F} {invs₁ : List (F × F)}
    (hvD : mkGroup f.domain = Except.ok (e₀, invs))
    (hvC : mkGroup f.codomain = Except.ok (e₁, invs₁))
    (hfv : function_valid (toFuncS f) = true)
    (hk : (f.mapping.map Prod.fst).Nodup)
    (hinj : InjectiveProp (toFuncS f)) (hsur : SurjectiveProp (toFuncS f))
    (hhom : is_homomorphism f = true) :
    is_homomorphism (⟨f.mapping.map (fun kv => (kv.2, kv.1)), f.codomain, f.domain⟩ :
      GroupFun F E) = true := by
  rw [is_homomorphism, List.all_eq_true]
  intro ab hab
  obtain ⟨ha, hb⟩ := mem_listProd.mp hab
  obtain ⟨a, b⟩ := ab
  obtain ⟨x, hx, hfa⟩ := hsur a ha
  obtain ⟨y, hy, hfb⟩ := hsur b hb
  rw [beq_iff_eq]
  show ((groupCall f.codomain [a, b]).bind
      (fun d => alookup (f.mapping.map (fun kv => (kv.2, kv.1))) d)) =
    ((alookup (f.mapping.map (fun kv => (kv.2, kv.1))) a).bind (fun ia =>
      (alookup (f.mapping.map (fun kv => (kv.2, kv.1))) b).bind (fun ib =>
        groupCall f.domain [ia, ib])))
  rw [groupCall_pair hvC ha hb, swap_lookup hfv hk hinj hx hfa,
    swap_lookup hfv hk hinj hy hfb]
  simp only [Option.bind_eq_bind, Option.some_bind]
  have hxy : op f.domain x y ∈ f.domain.elements := valid_op_mem hvD hx hy
  have happ := hom_apply hvD hvC hfv hhom hx hy hfa hfb
  rw [swap_lookup hfv hk hinj hxy happ, groupCall_pair hvD hx hy]

/-- C10: for a valid GroupFunction between valid groups, `is_isomorphism`
returns exactly `is_bijective && is_homomorphism`; the additional
inverse-homomorphism check never changes the result. -/
theorem c10_is_isomorphism (f : GroupFun E F) (e₀ : E) (invs : List (E × E))
    (e₁ : F) (invs₁ : List (F × F))
    (hvD : mkGroup f.domain = Except.ok (e₀, invs))
    (hvC : mkGroup f.codomain = Except.ok (e₁, invs₁))
    (hfv : function_valid (toFuncS f) = true)
    (hk : (f.mapping.map Prod.fst).Nodup) :
    is_isomorphism f = (is_bijective (toFuncS f)).map
      (fun bj => bj && is_homomorphism f) := by
  have hbij := is_bijective_spec hfv hk
  by_cases hB : InjectiveProp (toFuncS f) ∧ SurjectiveProp (toFuncS f)
  · rw [decide_eq_true hB] at hbij
    rw [is_isomorphism, hbij]
    simp only [Option.map_some']
    show (if is_homomorphism f = true then
        (group_fun_inverse f).map (fun fi => is_homomorphism fi)
      else some false) = some (true && is_homomorphism f)
    by_cases hhom : is_homomorphism f = true
    · rw [if_pos hhom, hhom]
      have hgfi : group_fun_inverse f =
          some ⟨f.mapping.map (fun kv => (kv.2, kv.1)), f.codomain, f.domain⟩ := by
        rw [group_fun_inverse, hbij]
        show (if function_valid ⟨f.mapping.map (fun kv => (kv.2, kv.1)),
            f.codomain.elements, f.domain.elements⟩ = true then
            some (⟨f.mapping.map (fun kv => (kv.2, kv.1)), f.codomain, f.domain⟩ :
              GroupFun F E)
          else none) =
          some ⟨f.mapping.map (fun kv => (kv.2, kv.1)), f.codomain, f.domain⟩
        have hfvs : function_valid ⟨f.mapping.map (fun kv => (kv.2, kv.1)),
            f.codomain.elements, f.domain.elements⟩ = true := swapped_valid hfv hB.2
        rw [if_pos hfvs]
      rw [hgfi]
      simp only [Option.map_some']
      rw [inverse_is_homomorphism hvD hvC hfv hk hB.1 hB.2 hhom]
      rfl
    · rw [if_neg hhom]
      rw [Bool.not_eq_true] at hhom
      rw [hhom]
      rfl
  · rw [decide_eq_false hB] at hbij
    rw [is_isomorphism, hbij]
    simp only [Option.map_some']
    rfl

/-- The identity map on the cyclic group of order 2. -/
def f10 : GroupFun Nat Nat := ⟨[(0, 0), (1, 1)], z2, z2⟩

/-- C10 witness: the identity map on a concrete group. -/
theorem c10_is_isomorphism_witness :
    is_isomorphism f10 = (is_bijective (toFuncS f10)).map
      (fun bj => bj && is_homomorphism f10) :=
  c10_is_isomorphism f10 0 [(0, 0), (1, 1)] 0 [(0, 0), (1, 1)]
    (by decide) (by decide) (by decide) (by decide)

/-- Evaluate a list comprehension whose body may raise: stop at the first
failure. -/
def travOpt {A B : Type} (f : A → Option B) : List A → Option (List B)
  | [] => some []
  | x :: r => (f x).bind (fun y => (travOpt f r).map (fun ys => y :: ys))

/-- A dict comprehension keeping exactly the entries whose key satisfies a
predicate. -/
def keyFilter {K V : Type} (q : K → Bool) (l : List (K × V)) : List (K × V) :=
  l.filter (fun kv => q kv.1)

theorem travOpt_isSome {A B : Type} (f : A → Option B) :
    ∀ l : List A, (∀ a ∈ l, (f a).isSome = true) → ∃ ys, travOpt f l = some ys := by
  intro l
  induction l with
  | nil => intro _; exact ⟨[], rfl⟩
  | cons x r ih =>
    intro h
    obtain ⟨y, hy⟩ := Option.isSome_iff_exists.mp (h x (List.mem_cons_self _ _))
    obtain ⟨ys, hys⟩ := ih (fun a ha => h a (List.mem_cons_of_mem _ ha))
    exact ⟨y :: ys, by rw [travOpt, hy, hys]; rfl⟩

theorem alookup_keyFilter {K V : Type} [DecidableEq K]
    (q : K → Bool) (l : List (K × V)) (k : K) (hq : q k = true) :
    alookup (keyFilter q l) k = alookup l k := by
  induction l with
  | nil => rfl
  | cons hd tl ih =>
    obtain ⟨k', v'⟩ := hd
    by_cases hk : k = k'
    · subst hk
      rw [keyFilter, List.filter_cons, if_pos (by simpa using hq)]
      rw [alookup, if_pos rfl, alookup, if_pos rfl]
    · by_cases hq' : q k' = true
      · rw [keyFilter, List.filter_cons, if_pos (by simpa using hq')]
        rw [alookup, if_neg hk, alookup, if_neg hk]
        exact ih
      · rw [keyFilter, List.filter_cons, if_neg (by simpa using hq')]
        rw [alookup, if_neg hk]
        exact ih

theorem mem_keyFilter {K V : Type} {q : K → Bool} {l : List (K × V)} {kv : K × V} :
    kv ∈ keyFilter q l ↔ kv ∈ l ∧ q kv.1 = true := by
  rw [keyFilter, List.mem_filter]

/-- The identity search on a validly constructed group finds the cached
identity. -/
theorem valid_identityFind {g : RawGroup E} {e₀ : E} {invs : List (E × E)}
    (hv : mkGroup g = Except.ok (e₀, invs)) : identityFind g = some e₀ := by
  obtain ⟨e', he'⟩ := identityFind_isSome ⟨e₀, valid_e_mem hv, valid_e_id hv⟩
  obtain ⟨he'm, he'id⟩ := identityFind_some he'
  rw [he', identity_unique he'm he'id (valid_e_mem hv) (valid_e_id hv)]

theorem gf_apply_total {f : GroupFun E F} (hfv : function_valid (toFuncS f) = true) :
    ∀ x ∈ f.domain.elements,
      ∃ v, alookup f.mapping x = some v ∧ v ∈ f.codomain.elements :=
  fun x hx => apply_total hfv x hx

/-- `GroupFunction.kernel`: collect the domain elements mapped to the
codomain's identity, filter the domain's product dict down to them, and
hand both to the Group constructor.  `none` models the raising paths of
`Function.__call__` during the scan. -/
def kernelRaw (f : GroupFun E F) : Option (RawGroup E) :=
  match travOpt (fun x => alookup f.mapping x) f.domain.elements with
  | none => none
  | some _ =>
    let kl := f.domain.elements.filter
      (fun x => alookup f.mapping x == identityFind f.codomain)
    some ⟨kl, keyFilter (fun p => decide (p.1 ∈ kl) && decide (p.2 ∈ kl))
      f.domain.products⟩

/-- The kernel as returned to the caller: the restricted data together with
the result of the Group constructor run on it. -/
def group_fun_kernel (f : GroupFun E F) : Option (Except GroupErr (RawGroup E)) :=
  (kernelRaw f).map (fun k => (mkGroup k).map (fun _ => k))

/-- C4: for a homomorphism between valid groups, the kernel is the set of
domain elements sent to the codomain identity, built as a Group by
restricting the domain's table to that set, and the construction succeeds. -/
theorem c4_kernel (f : GroupFun E F) (e₀ : E) (invs : List (E × E))
    (e₁ : F) (invs₁ : List (F × F))
    (hvD : mkGroup f.domain = Except.ok (e₀, invs))
    (hvC : mkGroup f.codomain = Except.ok (e₁, invs₁))
    (hfv : function_valid (toFuncS f) = true)
    (hkD : (f.domain.products.map Prod.fst).Nodup)
    (hhom : is_homomorphism f = true) :
    ∃ k, kernelRaw f = some k
      ∧ (∀ x, x ∈ k.elements ↔
          x ∈ f.domain.elements ∧ alookup f.mapping x = some e₁)
      ∧ k.products = keyFilter
          (fun p => decide (p.1 ∈ k.elements) && decide (p.2 ∈ k.elements))
          f.domain.products
      ∧ ∃ pr, mkGroup k = Except.ok pr := by
  have htrav : ∃ ys, travOpt (fun x => alookup f.mapping x) f.domain.elements
      = some ys := by
    refine travOpt_isSome _ _ (fun a ha => ?_)
    obtain ⟨v, hv, _⟩ := gf_apply_total hfv a ha
    rw [hv]; rfl
  obtain ⟨ys, hys⟩ := htrav
  have hidC : identityFind f.codomain = some e₁ := valid_identityFind hvC
  set kl : List E := f.domain.elements.filter
    (fun x => alookup f.mapping x == identityFind f.codomain) with hkl
  have hklmem : ∀ x, x ∈ kl ↔
      x ∈ f.domain.elements ∧ alookup f.mapping x = some e₁ := by
    intro x
    rw [hkl, List.mem_filter, hidC, beq_iff_eq]
  set kp := keyFilter (fun p => decide (p.1 ∈ kl) && decide (p.2 ∈ kl))
    f.domain.products with hkp
  refine ⟨⟨kl, kp⟩, ?_, hklmem, rfl, ?_⟩
  · rw [kernelRaw, hys]
  have hklsub : ∀ x ∈ kl, x ∈ f.domain.elements := fun x hx => (hklmem x).mp hx |>.1
  have hq : ∀ a ∈ kl, ∀ b ∈ kl,
      (decide ((a, b).1 ∈ kl) && decide ((a, b).2 ∈ kl)) = true := by
    intro a ha b hb
    rw [Bool.and_eq_true, decide_eq_true_eq, decide_eq_true_eq]
    exact ⟨ha, hb⟩
  have hlk : ∀ a ∈ kl, ∀ b ∈ kl, alookup kp (a, b) = alookup f.domain.products (a, b) :=
    fun a ha b hb => alookup_keyFilter _ _ _ (hq a ha b hb)
  have hopk : ∀ a ∈ kl, ∀ b ∈ kl,
      op (⟨kl, kp⟩ : RawGroup E) a b = op f.domain a b := by
    intro a ha b hb
    show (alookup kp (a, b)).getD a = op f.domain a b
    rw [hlk a ha b hb]
    rfl
  -- the kernel set is closed under the product
  have hclosed : ∀ a ∈ kl, ∀ b ∈ kl, op f.domain a b ∈ kl := by
    intro a ha b hb
    obtain ⟨had, hfa⟩ := (hklmem a).mp ha
    obtain ⟨hbd, hfb⟩ := (hklmem b).mp hb
    refine (hklmem _).mpr ⟨valid_op_mem hvD had hbd, ?_⟩
    rw [hom_apply hvD hvC hfv hhom had hbd hfa hfb,
      valid_op_one hvC (valid_e_mem hvC)]
  -- the domain identity is in the kernel
  have hfe : alookup f.mapping e₀ = some e₁ := by
    obtain ⟨v, hv, hvc⟩ := gf_apply_total hfv e₀ (valid_e_mem hvD)
    have h1 : alookup f.mapping (op f.domain e₀ e₀) = some (op f.codomain v v) :=
      hom_apply hvD hvC hfv hhom (valid_e_mem hvD) (valid_e_mem hvD) hv hv
    rw [valid_op_one hvD (valid_e_mem hvD), hv] at h1
    have h2 : v = op f.codomain v v := Option.some.inj h1
    have h3 : op f.codomain v e₁ = op f.codomain v v := by
      rw [valid_op_one hvC hvc]
      exact h2
    have h4 : e₁ = v := valid_cancel_left hvC hvc (valid_e_mem hvC) hvc h3
    rw [hv, ← h4]
  have heK : e₀ ∈ kl := (hklmem e₀).mpr ⟨valid_e_mem hvD, hfe⟩
  -- the kernel is closed under inverses
  have hinvK : ∀ x ∈ kl, ∃ y ∈ kl, op f.domain x y = e₀ := by
    intro x hx
    obtain ⟨hxd, hfx⟩ := (hklmem x).mp hx
    obtain ⟨y, hyd, hxy, hyx⟩ := valid_two_sided_inv hvD x hxd
    obtain ⟨vy, hvy, hvyc⟩ := gf_apply_total hfv y hyd
    have h1 : alookup f.mapping (op f.domain x y) = some (op f.codomain e₁ vy) :=
      hom_apply hvD hvC hfv hhom hxd hyd hfx hvy
    rw [hxy, hfe, valid_one_op hvC hvyc] at h1
    have h2 : vy = e₁ := (Option.some.inj h1).symm
    exact ⟨y, (hklmem y).mpr ⟨hyd, by rw [hvy, h2]⟩, hxy⟩
  -- assemble the group axioms for the kernel data
  refine mkGroup_ok_of_axioms ⟨⟨?_, ?_⟩, ⟨e₀, heK, ?_⟩, ⟨e₀, heK, ?_, ?_⟩, ?_⟩
  · intro kv hkv
    have hkv0 : kv ∈ keyFilter (fun p => decide (p.1 ∈ kl) && decide (p.2 ∈ kl))
        f.domain.products := hkv
    obtain ⟨hkv1, hkv2⟩ := mem_keyFilter.mp hkv0
    rw [Bool.and_eq_true, decide_eq_true_eq, decide_eq_true_eq] at hkv2
    refine ⟨hkv2.1, hkv2.2, ?_⟩
    have hl : alookup f.domain.products kv.1 = some kv.2 := by
      obtain ⟨⟨a, b⟩, c⟩ := kv
      exact alookup_of_mem_nodup hkD hkv1
    have hopv : kv.2 = op f.domain kv.1.1 kv.1.2 := by
      rw [op]
      obtain ⟨⟨a, b⟩, c⟩ := kv
      rw [hl]
      rfl
    rw [hopv]
    exact hclosed _ hkv2.1 _ hkv2.2
  · intro a ha b hb
    rw [hlk a ha b hb,
      op_lookup (valid_closure hvD) (hklsub a ha) (hklsub b hb)]
    rfl
  · intro x hx
    have hxd := hklsub x hx
    constructor
    · rw [hlk e₀ heK x hx, (valid_e_id hvD x hxd).1]
    · rw [hlk x hx e₀ heK, (valid_e_id hvD x hxd).2]
  · intro x hx
    have hxd := hklsub x hx
    constructor
    · rw [hlk e₀ heK x hx, (valid_e_id hvD x hxd).1]
    · rw [hlk x hx e₀ heK, (valid_e_id hvD x hxd).2]
  · intro x hx
    obtain ⟨y, hy, hxy⟩ := hinvK x hx
    refine ⟨y, hy, ?_⟩
    rw [hlk x hx y hy,
      op_lookup (valid_closure hvD) (hklsub x hx) (hklsub y hy), hxy]
  · intro a ha b hb c hc
    have hopab := hopk a ha b hb
    have habK := hclosed a ha b hb
    have hopbc := hopk b hb c hc
    have hbcK := hclosed b hb c hc
    rw [hopk a ha b hb, hopk b hb c hc]
    rw [show op (⟨kl, kp⟩ : RawGroup E) (op f.domain a b) c
        = op f.domain (op f.domain a b) c from hopk _ habK c hc]
    rw [show op (⟨kl, kp⟩ : RawGroup E) a (op f.domain b c)
        = op f.domain a (op f.domain b c) from hopk a ha _ hbcK]
    exact valid_assoc hvD a (hklsub a ha) b (hklsub b hb) c (hklsub c hc)

/-- C4 witness: the kernel of the identity map on the concrete group. -/
theorem c4_kernel_witness :
    ∃ k, kernelRaw f10 = some k
      ∧ (∀ x, x ∈ k.elements ↔
          x ∈ f10.domain.elements ∧ alookup f10.mapping x = some 0)
      ∧ k.products = keyFilter
          (fun p => decide (p.1 ∈ k.elements) && decide (p.2 ∈ k.elements))
          f10.domain.products
      ∧ ∃ pr, mkGroup k = Except.ok pr :=
  c4_kernel f10 0 [(0, 0), (1, 1)] 0 [(0, 0), (1, 1)]
    (by decide) (by decide) (by decide) (by decide) (by decide)

section Subgroups

variable {g : RawGroup E} {e₀ : E} {invs : List (E × E)}
variable {H : RawGroup E} {eH : E} {invsH : List (E × E)}

/-- Facts about a valid group `H` sitting inside a valid group `g`: the
element set is contained in `g`'s and the product dict agrees with `g`'s on
`H × H`. -/
def subgroupRel (g H : RawGroup E) : Prop :=
  (∀ x ∈ H.elements, x ∈ g.elements) ∧
  (∀ a ∈ H.elements, ∀ b ∈ H.elements,
    alookup H.products (a, b) = alookup g.products (a, b))

theorem sub_op_transfer (hrel : subgroupRel g H) {a b : E}
    (ha : a ∈ H.elements) (hb : b ∈ H.elements) : op H a b = op g a b := by
  rw [op, op, hrel.2 a ha b hb]

theorem sub_op_closed (hvH : mkGroup H = Except.ok (eH, invsH))
    (hrel : subgroupRel g H) {a b : E}
    (ha : a ∈ H.elements) (hb : b ∈ H.elements) : op g a b ∈ H.elements := by
  rw [← sub_op_transfer hrel ha hb]
  exact valid_op_mem hvH ha hb

theorem sub_e_eq (hv : mkGroup g = Except.ok (e₀, invs))
    (hvH : mkGroup H = Except.ok (eH, invsH)) (hrel : subgroupRel g H) :
    eH = e₀ := by
  have heHm : eH ∈ H.elements := valid_e_mem hvH
  have heHg : eH ∈ g.elements := hrel.1 eH heHm
  have h1 : op g eH eH = eH := by
    rw [← sub_op_transfer hrel heHm heHm]
    exact valid_op_one hvH heHm
  obtain ⟨y, hym, hy⟩ := valid_right_inv hv eH heHg
  have h2 : op g (op g eH eH) y = op g eH (op g eH y) :=
    valid_assoc hv eH heHg eH heHg y hym
  rw [h1, hy, valid_op_one hv heHg] at h2
  exact h2.symm

theorem sub_inv_closed (hv : mkGroup g = Except.ok (e₀, invs))
    (hvH : mkGroup H = Except.ok (eH, invsH)) (hrel : subgroupRel g H) :
    ∀ x ∈ H.elements, ∃ y ∈ H.elements, op g x y = e₀ ∧ op g y x = e₀ := by
  intro x hx
  obtain ⟨y, hy, hxy⟩ := valid_right_inv hvH x hx
  rw [sub_op_transfer hrel hx hy, sub_e_eq hv hvH hrel] at hxy
  obtain ⟨y₂, hy₂m, hxy₂, hy₂x⟩ := valid_two_sided_inv hv x (hrel.1 x hx)
  have : y = y₂ :=
    valid_cancel_left hv (hrel.1 x hx) (hrel.1 y hy) hy₂m (by rw [hxy, hxy₂])
  subst this
  exact ⟨y, hy, hxy, hy₂x⟩

/-- Lagrange's theorem over the embedding: the element count of a valid
group contained in a valid group `g` (with agreeing products) divides the
element count of `g`. -/
theorem coset_partition_dvd (hv : mkGroup g = Except.ok (e₀, invs))
    (hndG : g.elements.Nodup)
    (hvH : mkGroup H = Except.ok (eH, invsH)) (hndH : H.elements.Nodup)
    (hrel : subgroupRel g H) :
    H.elements.length ∣ g.elements.length := by
  classical
  set sG : Finset E := g.elements.toFinset with hsG
  set sH : Finset E := H.elements.toFinset with hsH
  have hHG : ∀ x ∈ sH, x ∈ sG := by
    intro x hx
    rw [hsH, List.mem_toFinset] at hx
    rw [hsG, List.mem_toFinset]
    exact hrel.1 x hx
  set rc : E → Finset E := fun x => sH.image (fun h => op g h x) with hrc
  have hmemG : ∀ x, x ∈ sG ↔ x ∈ g.elements := by
    intro x; rw [hsG, List.mem_toFinset]
  have hmemH : ∀ x, x ∈ sH ↔ x ∈ H.elements := by
    intro x; rw [hsH, List.mem_toFinset]
  have heH : e₀ ∈ sH := by
    rw [hmemH, ← sub_e_eq hv hvH hrel]
    exact valid_e_mem hvH
  have hself : ∀ x ∈ sG, x ∈ rc x := by
    intro x hx
    rw [hrc]
    exact Finset.mem_image.mpr ⟨e₀, heH, valid_one_op hv ((hmemG x).mp hx)⟩
  have hsubG : ∀ x ∈ sG, rc x ⊆ sG := by
    intro x hx z hz
    rw [hrc] at hz
    obtain ⟨h, hh, rfl⟩ := Finset.mem_image.mp hz
    rw [hmemG]
    exact valid_op_mem hv (hrel.1 h ((hmemH h).mp hh)) ((hmemG x).mp hx)
  have hcard : ∀ x ∈ sG, (rc x).card = sH.card := by
    intro x hx
    rw [hrc]
    apply Finset.card_image_of_injOn
    intro h1 hh1 h2 hh2 heq
    rw [Finset.mem_coe, hmemH] at hh1 hh2
    exact valid_cancel_right hv ((hmemG x).mp hx) (hrel.1 h1 hh1) (hrel.1 h2 hh2) heq
  have hshift : ∀ x ∈ sG, ∀ y, y ∈ rc x → rc y = rc x := by
    intro x hx y hy
    rw [hrc] at hy
    obtain ⟨h₀, hh₀, hyx⟩ := Finset.mem_image.mp hy
    have hh₀H : h₀ ∈ H.elements := (hmemH h₀).mp hh₀
    have hxg : x ∈ g.elements := (hmemG x).mp hx
    obtain ⟨h₀i, hh₀i, hright, hleft⟩ := sub_inv_closed hv hvH hrel h₀ hh₀H
    apply Finset.ext
    intro z
    rw [hrc]
    constructor
    · intro hz
      obtain ⟨h, hh, hzy⟩ := Finset.mem_image.mp hz
      have hhH : h ∈ H.elements := (hmemH h).mp hh
      refine Finset.mem_image.mpr ⟨op g h h₀, (hmemH _).mpr
        (sub_op_closed hvH hrel hhH hh₀H), ?_⟩
      rw [valid_assoc hv h (hrel.1 h hhH) h₀ (hrel.1 h₀ hh₀H) x hxg, hyx, hzy]
    · intro hz
      obtain ⟨h, hh, hzx⟩ := Finset.mem_image.mp hz
      have hhH : h ∈ H.elements := (hmemH h).mp hh
      have hyg : y ∈ g.elements := by
        rw [← hyx]
        exact valid_op_mem hv (hrel.1 h₀ hh₀H) hxg
      have hx2 : x = op g h₀i y := by
        rw [← hyx, ← valid_assoc hv h₀i (hrel.1 h₀i hh₀i) h₀ (hrel.1 h₀ hh₀H) x hxg,
          hleft, valid_one_op hv hxg]
      refine Finset.mem_image.mpr ⟨op g h h₀i, (hmemH _).mpr
        (sub_op_closed hvH hrel hhH hh₀i), ?_⟩
      rw [valid_assoc hv h (hrel.1 h hhH) h₀i (hrel.1 h₀i hh₀i) y hyg, ← hx2, hzx]
  have hbiUnion : sG = (sG.image rc).biUnion id := by
    apply Finset.ext
    intro z
    constructor
    · intro hz
      exact Finset.mem_biUnion.mpr ⟨rc z, Finset.mem_image.mpr ⟨z, hz, rfl⟩,
        hself z hz⟩
    · intro hz
      obtain ⟨c, hc, hzc⟩ := Finset.mem_biUnion.mp hz
      obtain ⟨x, hx, rfl⟩ := Finset.mem_image.mp hc
      exact hsubG x hx hzc
  have hdisj : ∀ c₁ ∈ sG.image rc, ∀ c₂ ∈ sG.image rc, c₁ ≠ c₂ →
      Disjoint (id c₁) (id c₂) := by
    intro c₁ hc₁ c₂ hc₂ hne
    obtain ⟨x₁, hx₁, rfl⟩ := Finset.mem_image.mp hc₁
    obtain ⟨x₂, hx₂, rfl⟩ := Finset.mem_image.mp hc₂
    rw [Finset.disjoint_left]
    intro z hz₁ hz₂
    exact hne (by rw [← hshift x₁ hx₁ z hz₁, ← hshift x₂ hx₂ z hz₂])
  have hcount : sG.card = (sG.image rc).card * sH.card := by
    nth_rewrite 1 [hbiUnion]
    rw [Finset.card_biUnion hdisj]
    have hconst : ∀ c ∈ sG.image rc, (id c).card = sH.card := by
      intro c hc
      obtain ⟨x, hx, rfl⟩ := Finset.mem_image.mp hc
      exact hcard x hx
    rw [Finset.sum_congr rfl hconst, Finset.sum_const, smul_eq_mul]
  have h1 : sG.card = g.elements.length := List.toFinset_card_of_nodup hndG
  have h2 : sH.card = H.elements.length := List.toFinset_card_of_nodup hndH
  exact ⟨(sG.image rc).card, by rw [← h1, ← h2, hcount, Nat.mul_comm]⟩

end Subgroups

/-- `collections.abc.Set.__le__`: a cheap length comparison followed by the
element-by-element membership check. -/
def setLe (a b : List E) : Bool :=
  decide (a.length ≤ b.length) && a.all (fun x => decide (x ∈ b))

/-- `Group.subproduct`: the parent's product dict restricted to the pairs
over the subset. -/
def subproduct (g : RawGroup E) (s : List E) : List ((E × E) × E) :=
  keyFilter (fun p => decide (p.1 ∈ s) && decide (p.2 ∈ s)) g.products

/-- `Group.subgroup`: require a subset, restrict the product table, and
re-run the Group constructor on the restriction.  `none` is the
`not a subset` raise; the inner `Except` carries the constructor result. -/
def subgroupM (g : RawGroup E) (s : List E) : Option (Except GroupErr (RawGroup E)) :=
  if setLe s g.elements then
    some ((mkGroup ⟨s, subproduct g s⟩).map
      (fun _ => (⟨s, subproduct g s⟩ : RawGroup E)))
  else none

/-- `Group.__le__`: Lagrange divisibility fast-reject, then subset check and
product-subdict check. -/
def group_le (g1 g2 : RawGroup E) : Bool :=
  (g2.elements.length % g1.elements.length == 0) &&
  (setLe g1.elements g2.elements &&
    g1.products.all (fun kv => alookup g2.products kv.1 == some kv.2))

theorem setLe_subset {a b : List E} (h : setLe a b = true) : ∀ x ∈ a, x ∈ b := by
  rw [setLe, Bool.and_eq_true, List.all_eq_true] at h
  intro x hx
  exact decide_eq_true_eq.mp (h.2 x hx)

/-- A successfully built subgroup stands in `subgroupRel` to its parent. -/
theorem subgroupM_rel {g : RawGroup E} {s : List E} {sub : RawGroup E}
    (h : subgroupM g s = some (Except.ok sub)) :
    sub = ⟨s, subproduct g s⟩ ∧ (∃ pr, mkGroup sub = Except.ok pr) ∧
      subgroupRel g sub := by
  rw [subgroupM] at h
  by_cases hle : setLe s g.elements = true
  · rw [if_pos hle] at h
    injection h with h
    cases hmk : mkGroup (⟨s, subproduct g s⟩ : RawGroup E) with
    | error er => rw [hmk] at h; exact absurd h (by simp [Except.map])
    | ok pr =>
      rw [hmk] at h
      have hsub : sub = ⟨s, subproduct g s⟩ := by
        have := Except.ok.inj h
        exact this.symm
      subst hsub
      refine ⟨rfl, ⟨pr, hmk⟩, setLe_subset hle, ?_⟩
      intro a ha b hb
      show alookup (subproduct g s) (a, b) = alookup g.products (a, b)
      refine alookup_keyFilter _ _ _ ?_
      rw [Bool.and_eq_true, decide_eq_true_eq, decide_eq_true_eq]
      exact ⟨ha, hb⟩
  · rw [if_neg hle] at h
    exact absurd h (by simp)

/-- C6: the order of any successfully constructed subgroup divides the
order of the parent group (Lagrange); and the subgroup comparison returns
false outright whenever the candidate's order does not divide the
other's. -/
theorem c6_lagrange_and_le :
    (∀ (g : RawGroup E) (e₀ : E) (invs : List (E × E)),
      mkGroup g = Except.ok (e₀, invs) → g.elements.Nodup →
      ∀ s : List E, s.Nodup → ∀ sub : RawGroup E,
        subgroupM g s = some (Except.ok sub) → order sub ∣ order g)
    ∧ (∀ g1 g2 : RawGroup E, ¬ (order g1 ∣ order g2) → group_le g1 g2 = false) := by
  constructor
  · intro g e₀ invs hv hndG s hndS sub hres
    obtain ⟨hsub, ⟨⟨eH, invsH⟩, hmk⟩, hrel⟩ := subgroupM_rel hres
    have hndH : sub.elements.Nodup := by rw [hsub]; exact hndS
    exact coset_partition_dvd hv hndG hmk hndH hrel
  · intro g1 g2 hnd
    have hmod : (g2.elements.length % g1.elements.length == 0) = false := by
      rw [beq_eq_false_iff_ne]
      intro h
      exact hnd (Nat.dvd_of_mod_eq_zero h)
    rw [group_le, hmod, Bool.false_and]

/-- C6 witness: the trivial subgroup of the order-2 group has order dividing
2, and an order-2 group is rejected as a subgroup of an order-3 table. -/
theorem c6_lagrange_and_le_witness :
    order (⟨[0], [((0, 0), 0)]⟩ : RawGroup Nat) ∣ order z2
    ∧ group_le z2 badInv = false :=
  ⟨c6_lagrange_and_le.1 z2 0 [(0, 0), (1, 1)] (by decide) (by decide)
      [0] (by decide) ⟨[0], [((0, 0), 0)]⟩ (by decide),
    c6_lagrange_and_le.2 z2 badInv (by decide)⟩

/-- The loop of `Group.is_abelian` over `itertools.combinations(self, 2)`:
check every unordered pair of distinct positions. -/
def pairwiseComm (g : RawGroup E) : List E → Bool
  | [] => true
  | x :: rest =>
    rest.all (fun y =>
      alookup g.products (x, y) == alookup g.products (y, x)) && pairwiseComm g rest

/-- `Group.is_abelian`. -/
def is_abelian (g : RawGroup E) : Bool := pairwiseComm g g.elements

/-- `Group.is_normal`: require a subgroup (raise — `none` — otherwise);
abelian groups short-circuit to true; otherwise check that every conjugate
of a subgroup element lies in the subgroup, using the cached inverse
table.  The inner `false` branches stand for raising paths that cannot be
reached on a valid group. -/
def is_normal (g sub : RawGroup E) : Option Bool :=
  match mkGroup g with
  | Except.error _ => none
  | Except.ok (_, invs) =>
    if group_le sub g then
      if is_abelian g then some true
      else some (sub.elements.all (fun h =>
        g.elements.all (fun o =>
          match alookup invs o with
          | none => false
          | some oi =>
            match groupCall g [o, h, oi] with
            | none => false
            | some c => decide (c ∈ sub.elements))))
    else none

/-- `Group.right_coset`: require a subgroup, then collect `s ∘ x` over the
subgroup's elements into a Set. -/
def right_coset (g sub : RawGroup E) (x : E) : Option (Finset E) :=
  if group_le sub g then
    (travOpt (fun s => groupCall g [s, x]) sub.elements).map List.toFinset
  else none

/-- `Group.coset`: defined only for normal subgroups (raise otherwise);
returns the right coset. -/
def coset (g sub : RawGroup E) (x : E) : Option (Finset E) :=
  match is_normal g sub with
  | some true => right_coset g sub x
  | _ => none

/-- The right coset as a finite set, for specification statements. -/
def cosetF (g N : RawGroup E) (x : E) : Finset E :=
  (N.elements.map (fun s => op g s x)).toFinset

/-- Mathematical normality of `N` in `g` relative to the identity `e₀`:
conjugates of subgroup elements stay in the subgroup. -/
def NormalProp (g N : RawGroup E) (e₀ : E) : Prop :=
  ∀ o ∈ g.elements, ∀ h ∈ N.elements, ∀ oi ∈ g.elements,
    op g o oi = e₀ → op g oi o = e₀ → op g (op g o h) oi ∈ N.elements

instance decNormalProp (g N : RawGroup E) (e₀ : E) : Decidable (NormalProp g N e₀) := by
  unfold NormalProp; infer_instance

theorem group_le_subset {g1 g2 : RawGroup E} (h : group_le g1 g2 = true) :
    ∀ x ∈ g1.elements, x ∈ g2.elements := by
  rw [group_le, Bool.and_eq_true, Bool.and_eq_true] at h
  exact setLe_subset h.2.1

theorem group_le_subdict {g1 g2 : RawGroup E} (h : group_le g1 g2 = true) :
    ∀ kv ∈ g1.products, alookup g2.products kv.1 = some kv.2 := by
  rw [group_le, Bool.and_eq_true, Bool.and_eq_true, List.all_eq_true] at h
  intro kv hkv
  exact beq_iff_eq.mp (h.2.2 kv hkv)

theorem pairwiseComm_eq {g : RawGroup E} :
    ∀ {l : List E}, pairwiseComm g l = true → ∀ a ∈ l, ∀ b ∈ l,
      alookup g.products (a, b) = alookup g.products (b, a) := by
  intro l
  induction l with
  | nil => intro _ a ha; simp at ha
  | cons x rest ih =>
    intro h a ha b hb
    rw [pairwiseComm, Bool.and_eq_true, List.all_eq_true] at h
    rcases List.mem_cons.mp ha with rfl | ha2
    · rcases List.mem_cons.mp hb with rfl | hb2
      · rfl
      · exact beq_iff_eq.mp (h.1 b hb2)
    · rcases List.mem_cons.mp hb with rfl | hb2
      · exact (beq_iff_eq.mp (h.1 a ha2)).symm
      · exact ih h.2 a ha2 b hb2

theorem is_abelian_comm {g : RawGroup E} {e₀ : E} {invs : List (E × E)}
    (hv : mkGroup g = Except.ok (e₀, invs)) (hab : is_abelian g = true) :
    ∀ a ∈ g.elements, ∀ b ∈ g.elements, op g a b = op g b a := by
  intro a ha b hb
  have := pairwiseComm_eq hab a ha b hb
  rw [op, op, this,
    op_lookup (valid_closure hv) hb ha]
  rfl

theorem groupCall_triple {g : RawGroup E} {e₀ : E} {invs : List (E × E)}
    (hv : mkGroup g = Except.ok (e₀, invs)) {a b c : E}
    (ha : a ∈ g.elements) (hb : b ∈ g.elements) (hc : c ∈ g.elements) :
    groupCall g [a, b, c] = some (op g (op g a b) c) := by
  rw [groupCall, hv]
  show gcallAux g e₀ [a, b, c] = some (op g (op g a b) c)
  rw [gcallAux_all_mem hv [a, b, c] e₀ (valid_e_mem hv) (by
    intro x hx
    rcases List.mem_cons.mp hx with rfl | hx2
    · exact ha
    rcases List.mem_cons.mp hx2 with rfl | hx3
    · exact hb
    rw [List.mem_singleton] at hx3
    subst hx3
    exact hc)]
  rw [List.foldl_cons, List.foldl_cons, List.foldl_cons, List.foldl_nil,
    valid_one_op hv ha]

theorem travOpt_mapf {A B : Type} {f : A → Option B} {h : A → B} :
    ∀ {l : List A}, (∀ a ∈ l, f a = some (h a)) → travOpt f l = some (l.map h) := by
  intro l
  induction l with
  | nil => intro _; rfl
  | cons x r ih =>
    intro hall
    rw [travOpt, hall x (List.mem_cons_self _ _),
      ih (fun a ha => hall a (List.mem_cons_of_mem _ ha))]
    rfl

/-- On a valid group with a subgroup, `is_normal` returns a boolean which is
true exactly when every conjugate of a subgroup element is in the
subgroup. -/
theorem is_normal_spec {g N : RawGroup E} {e₀ : E} {invs : List (E × E)}
    (hv : mkGroup g = Except.ok (e₀, invs)) (hle : group_le N g = true) :
    is_normal g N = some (decide (NormalProp g N e₀)) := by
  have hNsub := group_le_subset hle
  rw [is_normal]
  simp only [hv]
  rw [if_pos hle]
  by_cases hab : is_abelian g = true
  · rw [if_pos hab]
    congr 1
    have hnp : NormalProp g N e₀ := by
      intro o ho h hh oi hoi hooi hoio
      have hhg := hNsub h hh
      have h1 : op g (op g o h) oi = op g oi (op g o h) :=
        is_abelian_comm hv hab _ (valid_op_mem hv ho hhg) oi hoi
      have h2 : op g oi (op g o h) = op g (op g oi o) h :=
        (valid_assoc hv oi hoi o ho h hhg).symm
      rw [h1, h2, hoio, valid_one_op hv hhg]
      exact hh
    rw [decide_eq_true hnp]
  · rw [if_neg hab]
    congr 1
    by_cases hnp : NormalProp g N e₀
    · rw [decide_eq_true hnp, List.all_eq_true]
      intro h hh
      rw [List.all_eq_true]
      intro o ho
      obtain ⟨oi, hoi, hoig, hooi, hoio⟩ := valid_invs_lookup hv o ho
      simp only [hoi, groupCall_triple hv ho (hNsub h hh) hoig]
      exact decide_eq_true (hnp o ho h hh oi hoig hooi hoio)
    · rw [decide_eq_false hnp]
      rw [Bool.eq_false_iff]
      intro hall
      apply hnp
      intro o ho h hh oi hoig hooi hoio
      rw [List.all_eq_true] at hall
      have h1 := hall h hh
      rw [List.all_eq_true] at h1
      have h2 := h1 o ho
      obtain ⟨oi', hoi', hoi'g, hooi', hoi'o⟩ := valid_invs_lookup hv o ho
      have : oi' = oi :=
        valid_cancel_left hv ho hoi'g hoig (by rw [hooi', hooi])
      subst this
      simp only [hoi', groupCall_triple hv ho (hNsub h hh) hoi'g] at h2
      exact decide_eq_true_eq.mp h2

/-- C5: for a valid group, a subgroup `H` and a group element `x`, `coset`
raises exactly when `H` is not normal, and otherwise returns the right
coset of `x`. -/
theorem c5_coset (g : RawGroup E) (e₀ : E) (invs : List (E × E))
    (N : RawGroup E) (hv : mkGroup g = Except.ok (e₀, invs))
    (hle : group_le N g = true) (x : E) (hx : x ∈ g.elements) :
    (coset g N x = none ↔ ¬ NormalProp g N e₀)
    ∧ (NormalProp g N e₀ → coset g N x = some (cosetF g N x)) := by
  have hNsub := group_le_subset hle
  have hrc : right_coset g N x = some (cosetF g N x) := by
    rw [right_coset, if_pos hle,
      travOpt_mapf (fun s hs => groupCall_pair hv (hNsub s hs) hx)]
    rfl
  by_cases hnp : NormalProp g N e₀
  · have hres : coset g N x = some (cosetF g N x) := by
      rw [coset, is_normal_spec hv hle, decide_eq_true hnp]
      exact hrc
    rw [hres]
    exact ⟨⟨fun h2 => absurd h2 (by simp), fun h2 => absurd hnp h2⟩, fun _ => rfl⟩
  · have hres : coset g N x = none := by
      rw [coset, is_normal_spec hv hle, decide_eq_false hnp]
    rw [hres]
    exact ⟨⟨fun _ => hnp, fun _ => rfl⟩, fun h2 => absurd h2 hnp⟩

/-- C5 witness: the trivial subgroup of the order-2 group is normal, and the
coset of 1 is the singleton set containing 1. -/
theorem c5_coset_witness :
    coset z2 (⟨[0], [((0, 0), 0)]⟩ : RawGroup Nat) 1 =
      some (cosetF z2 ⟨[0], [((0, 0), 0)]⟩ 1) :=
  (c5_coset z2 0 [(0, 0), (1, 1)] ⟨[0], [((0, 0), 0)]⟩ (by decide) (by decide)
    1 (by decide)).2 (by decide)

section QuotientInfra

variable {g N : RawGroup E} {e₀ eN : E} {invs invsN : List (E × E)}

/-- A subgroup in the sense of `Group.__le__` stands in `subgroupRel`
to the parent. -/
theorem group_le_rel (hvN : mkGroup N = Except.ok (eN, invsN))
    (hle : group_le N g = true) : subgroupRel g N := by
  refine ⟨group_le_subset hle, fun a ha b hb => ?_⟩
  have hsome := (valid_closure hvN).2 a ha b hb
  obtain ⟨c, hc⟩ := Option.isSome_iff_exists.mp hsome
  rw [hc, group_le_subdict hle _ (alookup_some_mem hc)]

theorem cosetF_mem {g N : RawGroup E} {x z : E} :
    z ∈ cosetF g N x ↔ ∃ s ∈ N.elements, op g s x = z := by
  rw [cosetF, List.mem_toFinset, List.mem_map]

/-- Evaluate `coset` under validity, subgroup and normality hypotheses. -/
theorem coset_eval (hv : mkGroup g = Except.ok (e₀, invs))
    (hle : group_le N g = true) (hnp : NormalProp g N e₀)
    {x : E} (hx : x ∈ g.elements) :
    coset g N x = some (cosetF g N x) := by
  rw [coset, is_normal_spec hv hle, decide_eq_true hnp, right_coset, if_pos hle,
    travOpt_mapf (fun s hs => groupCall_pair hv (group_le_subset hle s hs) hx)]
  rfl

theorem coset_self (hv : mkGroup g = Except.ok (e₀, invs))
    (hvN : mkGroup N = Except.ok (eN, invsN)) (hle : group_le N g = true)
    {x : E} (hx : x ∈ g.elements) : x ∈ cosetF g N x := by
  refine cosetF_mem.mpr ⟨e₀, ?_, valid_one_op hv hx⟩
  rw [← sub_e_eq hv hvN (group_le_rel hvN hle)]
  exact valid_e_mem hvN

theorem coset_subset (hv : mkGroup g = Except.ok (e₀, invs))
    (hle : group_le N g = true) {x : E} (hx : x ∈ g.elements) :
    ∀ z ∈ cosetF g N x, z ∈ g.elements := by
  intro z hz
  obtain ⟨s, hs, rfl⟩ := cosetF_mem.mp hz
  exact valid_op_mem hv (group_le_subset hle s hs) hx

theorem coset_shift (hv : mkGroup g = Except.ok (e₀, invs))
    (hvN : mkGroup N = Except.ok (eN, invsN)) (hle : group_le N g = true)
    {x y : E} (hx : x ∈ g.elements) (hy : y ∈ g.elements)
    (hmem : y ∈ cosetF g N x) : cosetF g N y = cosetF g N x := by
  have hrel := group_le_rel hvN hle
  obtain ⟨s₀, hs₀, hyx⟩ := cosetF_mem.mp hmem
  have hs₀g := hrel.1 s₀ hs₀
  obtain ⟨s₀i, hs₀i, hright, hleft⟩ := sub_inv_closed hv hvN hrel s₀ hs₀
  have hs₀ig := hrel.1 s₀i hs₀i
  apply Finset.ext
  intro z
  constructor
  · intro hz
    obtain ⟨s, hs, hzy⟩ := cosetF_mem.mp hz
    have hsg := hrel.1 s hs
    refine cosetF_mem.mpr ⟨op g s s₀, sub_op_closed hvN hrel hs hs₀, ?_⟩
    rw [valid_assoc hv s hsg s₀ hs₀g x hx, hyx, hzy]
  · intro hz
    obtain ⟨s, hs, hzx⟩ := cosetF_mem.mp hz
    have hsg := hrel.1 s hs
    have hx2 : x = op g s₀i y := by
      rw [← hyx, ← valid_assoc hv s₀i hs₀ig s₀ hs₀g x hx, hleft,
        valid_one_op hv hx]
    refine cosetF_mem.mpr ⟨op g s s₀i, sub_op_closed hvN hrel hs hs₀i, ?_⟩
    rw [valid_assoc hv s hsg s₀i hs₀ig y hy, ← hx2, hzx]

/-- Quotient well-definedness: products of cosets do not depend on the
representatives, because the subgroup is normal. -/
theorem coset_welldef (hv : mkGroup g = Except.ok (e₀, invs))
    (hvN : mkGroup N = Except.ok (eN, invsN)) (hle : group_le N g = true)
    (hnp : NormalProp g N e₀)
    {x x' y y' : E} (hx : x ∈ g.elements) (hx' : x' ∈ g.elements)
    (hy : y ∈ g.elements) (hy' : y' ∈ g.elements)
    (h1 : cosetF g N x = cosetF g N x') (h2 : cosetF g N y = cosetF g N y') :
    cosetF g N (op g x y) = cosetF g N (op g x' y') := by
  have hrel := group_le_rel hvN hle
  have hx'c : x' ∈ cosetF g N x := by
    rw [h1]; exact coset_self hv hvN hle hx'
  have hy'c : y' ∈ cosetF g N y := by
    rw [h2]; exact coset_self hv hvN hle hy'
  obtain ⟨s₁, hs₁, hs₁x⟩ := cosetF_mem.mp hx'c
  obtain ⟨s₂, hs₂, hs₂y⟩ := cosetF_mem.mp hy'c
  have hs₁g := hrel.1 s₁ hs₁
  have hs₂g := hrel.1 s₂ hs₂
  obtain ⟨xi, hxig, hxxi, hxix⟩ := valid_two_sided_inv hv x hx
  have hn : op g (op g x s₂) xi ∈ N.elements :=
    hnp x hx s₂ hs₂ xi hxig hxxi hxix
  set n : E := op g (op g x s₂) xi with hn2
  have hng := hrel.1 n hn
  have hxs₂g : op g x s₂ ∈ g.elements := valid_op_mem hv hx hs₂g
  have hnx : op g n x = op g x s₂ := by
    rw [hn2, valid_assoc hv (op g x s₂) hxs₂g xi hxig x hx, hxix,
      valid_op_one hv hxs₂g]
  have hxy : op g x y ∈ g.elements := valid_op_mem hv hx hy
  have hkey : op g x' y' = op g (op g s₁ n) (op g x y) := by
    rw [← hs₁x, ← hs₂y]
    rw [valid_assoc hv s₁ hs₁g x hx (op g s₂ y) (valid_op_mem hv hs₂g hy)]
    rw [← valid_assoc hv x hx s₂ hs₂g y hy]
    rw [← hnx]
    rw [valid_assoc hv n hng x hx y hy]
    rw [← valid_assoc hv s₁ hs₁g n hng (op g x y) hxy]
  have hmem : op g x' y' ∈ cosetF g N (op g x y) :=
    cosetF_mem.mpr ⟨op g s₁ n, sub_op_closed hvN hrel hs₁ hn, hkey.symm⟩
  exact (coset_shift hv hvN hle hxy (valid_op_mem hv hx' hy') hmem).symm

end QuotientInfra

/-- The loop building `quotient_set`: collect each element's coset,
skipping cosets already present. -/
def quotientSetLoop (g N : RawGroup E) :
    List E → List (Finset E) → Option (List (Finset E))
  | [], acc => some acc
  | x :: rest, acc =>
    match coset g N x with
    | none => none
    | some c => quotientSetLoop g N rest (if c ∈ acc then acc else acc ++ [c])

/-- The loop building `quotient_product`: for each ordered pair of parent
elements, memoize the product of their cosets the first time the coset pair
is seen. -/
def quotientProdLoop (g N : RawGroup E) :
    List (E × E) → List ((Finset E × Finset E) × Finset E) →
      Option (List ((Finset E × Finset E) × Finset E))
  | [], acc => some acc
  | (a, b) :: rest, acc =>
    match coset g N a, coset g N b with
    | some ca, some cb =>
      if (alookup acc (ca, cb)).isSome then quotientProdLoop g N rest acc
      else
        match groupCall g [a, b] with
        | none => none
        | some ab =>
          match coset g N ab with
          | none => none
          | some cab => quotientProdLoop g N rest (acc ++ [((ca, cb), cab)])
    | _, _ => none

/-- `Group.quotient`: require normality, build the coset set and the induced
product, and run the Group constructor on them. -/
def quotient (g N : RawGroup E) : Option (Except GroupErr (RawGroup (Finset E))) :=
  match is_normal g N with
  | some true =>
    match quotientSetLoop g N g.elements [],
        quotientProdLoop g N (listProd g.elements g.elements) [] with
    | some qs, some qp =>
      some ((mkGroup (⟨qs, qp⟩ : RawGroup (Finset E))).map
        (fun _ => (⟨qs, qp⟩ : RawGroup (Finset E))))
    | _, _ => none
  | _ => none

section QuotientProofs

variable {g N : RawGroup E} {e₀ eN : E} {invs invsN : List (E × E)}

theorem quotientSetLoop_spec (hv : mkGroup g = Except.ok (e₀, invs))
    (hle : group_le N g = true) (hnp : NormalProp g N e₀) :
    ∀ (l : List E) (acc : List (Finset E)),
      (∀ x ∈ l, x ∈ g.elements) → acc.Nodup →
      ∃ res, quotientSetLoop g N l acc = some res ∧ res.Nodup ∧
        (∀ c, c ∈ res ↔ c ∈ acc ∨ ∃ x ∈ l, cosetF g N x = c) := by
  intro l
  induction l with
  | nil =>
    intro acc _ hnd
    refine ⟨acc, rfl, hnd, fun c => ?_⟩
    simp
  | cons x rest ih =>
    intro acc hl hnd
    have hx : x ∈ g.elements := hl x (List.mem_cons_self _ _)
    have hcos := coset_eval hv hle hnp hx
    set acc' : List (Finset E) :=
      if cosetF g N x ∈ acc then acc else acc ++ [cosetF g N x] with hacc'
    have hnd' : acc'.Nodup := by
      rw [hacc']
      by_cases hmem : cosetF g N x ∈ acc
      · rw [if_pos hmem]; exact hnd
      · rw [if_neg hmem]
        rw [List.nodup_append]
        refine ⟨hnd, List.nodup_singleton _, ?_⟩
        intro a ha hb
        rw [List.mem_singleton] at hb
        subst hb
        exact hmem ha
    have hmem' : ∀ c, c ∈ acc' ↔ c ∈ acc ∨ c = cosetF g N x := by
      intro c
      rw [hacc']
      by_cases hmem : cosetF g N x ∈ acc
      · rw [if_pos hmem]
        constructor
        · exact Or.inl
        · rintro (h | rfl)
          · exact h
          · exact hmem
      · rw [if_neg hmem, List.mem_append, List.mem_singleton]
    obtain ⟨res, hres, hndres, hchar⟩ :=
      ih acc' (fun z hz => hl z (List.mem_cons_of_mem _ hz)) hnd'
    refine ⟨res, ?_, hndres, fun c => ?_⟩
    · rw [quotientSetLoop, hcos]
      exact hres
    · rw [hchar c]
      constructor
      · rintro (h | ⟨z, hz, rfl⟩)
        · rcases (hmem' c).mp h with h2 | rfl
          · exact Or.inl h2
          · exact Or.inr ⟨x, List.mem_cons_self _ _, rfl⟩
        · exact Or.inr ⟨z, List.mem_cons_of_mem _ hz, rfl⟩
      · rintro (h | ⟨z, hz, rfl⟩)
        · exact Or.inl ((hmem' c).mpr (Or.inl h))
        · rcases List.mem_cons.mp hz with rfl | hz2
          · exact Or.inl ((hmem' _).mpr (Or.inr rfl))
          · exact Or.inr ⟨z, hz2, rfl⟩

theorem quotientProdLoop_spec (hv : mkGroup g = Except.ok (e₀, invs))
    (hle : group_le N g = true) (hnp : NormalProp g N e₀) :
    ∀ (l : List (E × E)) (acc : List ((Finset E × Finset E) × Finset E)),
      (∀ p ∈ l, p.1 ∈ g.elements ∧ p.2 ∈ g.elements) →
      (∀ entry ∈ acc, ∃ a ∈ g.elements, ∃ b ∈ g.elements,
        entry.1 = (cosetF g N a, cosetF g N b) ∧ entry.2 = cosetF g N (op g a b)) →
      ∃ res, quotientProdLoop g N l acc = some res ∧
        (∀ entry ∈ res, ∃ a ∈ g.elements, ∃ b ∈ g.elements,
          entry.1 = (cosetF g N a, cosetF g N b) ∧ entry.2 = cosetF g N (op g a b)) ∧
        (∀ entry ∈ acc, entry ∈ res) ∧
        (∀ p ∈ l, (alookup res (cosetF g N p.1, cosetF g N p.2)).isSome = true) := by
  intro l
  induction l with
  | nil =>
    intro acc _ hent
    exact ⟨acc, rfl, hent, fun entry h => h, fun p hp => by simp at hp⟩
  | cons ab rest ih =>
    intro acc hl hent
    obtain ⟨a, b⟩ := ab
    have ha : a ∈ g.elements := (hl (a, b) (List.mem_cons_self _ _)).1
    have hb : b ∈ g.elements := (hl (a, b) (List.mem_cons_self _ _)).2
    have hcosa := coset_eval hv hle hnp ha
    have hcosb := coset_eval hv hle hnp hb
    by_cases hhit : (alookup acc (cosetF g N a, cosetF g N b)).isSome = true
    · obtain ⟨res, hres, hallent, hmono, hcover⟩ :=
        ih acc (fun p hp => hl p (List.mem_cons_of_mem _ hp)) hent
      refine ⟨res, ?_, hallent, hmono, ?_⟩
      · rw [quotientProdLoop]
        simp only [hcosa, hcosb]
        rw [if_pos hhit]
        exact hres
      · intro p hp
        rcases List.mem_cons.mp hp with rfl | hp2
        · obtain ⟨v, hvl⟩ := Option.isSome_iff_exists.mp hhit
          exact alookup_isSome_of_mem (hmono _ (alookup_some_mem hvl))
        · exact hcover p hp2
    · have hab : op g a b ∈ g.elements := valid_op_mem hv ha hb
      have hcall := groupCall_pair hv ha hb
      have hcosab := coset_eval hv hle hnp hab
      set acc' := acc ++ [((cosetF g N a, cosetF g N b), cosetF g N (op g a b))]
        with hacc'
      have hent' : ∀ entry ∈ acc', ∃ a2 ∈ g.elements, ∃ b2 ∈ g.elements,
          entry.1 = (cosetF g N a2, cosetF g N b2) ∧
          entry.2 = cosetF g N (op g a2 b2) := by
        intro entry hentm
        rw [hacc', List.mem_append, List.mem_singleton] at hentm
        rcases hentm with h2 | rfl
        · exact hent entry h2
        · exact ⟨a, ha, b, hb, rfl, rfl⟩
      obtain ⟨res, hres, hallent, hmono, hcover⟩ :=
        ih acc' (fun p hp => hl p (List.mem_cons_of_mem _ hp)) hent'
      refine ⟨res, ?_, hallent,
        fun entry h2 => hmono entry (by rw [hacc']; exact List.mem_append_left _ h2),
        ?_⟩
      · rw [quotientProdLoop]
        simp only [hcosa, hcosb]
        rw [if_neg hhit]
        simp only [hcall, hcosab]
        exact hres
      · intro p hp
        rcases List.mem_cons.mp hp with rfl | hp2
        · have hentry : ((cosetF g N a, cosetF g N b), cosetF g N (op g a b)) ∈ res := by
            apply hmono
            rw [hacc', List.mem_append, List.mem_singleton]
            exact Or.inr rfl
          exact alookup_isSome_of_mem hentry
        · exact hcover p hp2

/-- The memoized quotient product dict maps every pair of cosets to the
coset of the product of the representatives — any representatives. -/
theorem quotientProd_lookup (hv : mkGroup g = Except.ok (e₀, invs))
    (hvN : mkGroup N = Except.ok (eN, invsN))
    (hle : group_le N g = true) (hnp : NormalProp g N e₀)
    {qp : List ((Finset E × Finset E) × Finset E)}
    (hallent : ∀ entry ∈ qp, ∃ a ∈ g.elements, ∃ b ∈ g.elements,
      entry.1 = (cosetF g N a, cosetF g N b) ∧ entry.2 = cosetF g N (op g a b))
    (hcover : ∀ p ∈ listProd g.elements g.elements,
      (alookup qp (cosetF g N p.1, cosetF g N p.2)).isSome = true) :
    ∀ a ∈ g.elements, ∀ b ∈ g.elements,
      alookup qp (cosetF g N a, cosetF g N b) = some (cosetF g N (op g a b)) := by
  intro a ha b hb
  have hsome := hcover (a, b) (mem_listProd.mpr ⟨ha, hb⟩)
  obtain ⟨v, hvl⟩ := Option.isSome_iff_exists.mp hsome
  obtain ⟨a', ha', b', hb', hk, hval⟩ := hallent _ (alookup_some_mem hvl)
  have hval2 : v = cosetF g N (op g a' b') := hval
  have hka : cosetF g N a' = cosetF g N a := (congrArg Prod.fst hk).symm
  have hkb : cosetF g N b' = cosetF g N b := (congrArg Prod.snd hk).symm
  have hwd : cosetF g N (op g a' b') = cosetF g N (op g a b) :=
    coset_welldef hv hvN hle hnp ha' ha hb' hb hka hkb
  rw [hvl, hval2, hwd]

/-- C3: cosets modulo a normal subgroup multiply independently of the chosen
representatives, and the quotient construction succeeds, its elements being
exactly the distinct cosets and its product sending a pair of cosets to the
coset of the product of any representatives. -/
theorem c3_quotient (g N : RawGroup E) (e₀ eN : E)
    (invs invsN : List (E × E))
    (hv : mkGroup g = Except.ok (e₀, invs))
    (hvN : mkGroup N = Except.ok (eN, invsN))
    (hle : group_le N g = true) (hnp : NormalProp g N e₀) :
    (∀ g1 ∈ g.elements, ∀ g1' ∈ g.elements, ∀ g2 ∈ g.elements, ∀ g2' ∈ g.elements,
      cosetF g N g1 = cosetF g N g1' → cosetF g N g2 = cosetF g N g2' →
      cosetF g N (op g g1 g2) = cosetF g N (op g g1' g2'))
    ∧ ∃ q : RawGroup (Finset E), quotient g N = some (Except.ok q)
      ∧ q.elements.Nodup
      ∧ (∀ c, c ∈ q.elements ↔ ∃ x ∈ g.elements, cosetF g N x = c)
      ∧ (∀ a ∈ g.elements, ∀ b ∈ g.elements,
          alookup q.products (cosetF g N a, cosetF g N b) =
            some (cosetF g N (op g a b)))
      ∧ ∃ pr, mkGroup q = Except.ok pr := by
  refine ⟨fun g1 h1 g1' h1' g2 h2 g2' h2' e1 e2 =>
    coset_welldef hv hvN hle hnp h1 h1' h2 h2' e1 e2, ?_⟩
  obtain ⟨qs, hqs, hqsnd, hqschar⟩ :=
    quotientSetLoop_spec hv hle hnp g.elements [] (fun x hx => hx) List.nodup_nil
  obtain ⟨qp, hqp, hallent, _, hcover⟩ :=
    quotientProdLoop_spec hv hle hnp (listProd g.elements g.elements) []
      (fun p hp => mem_listProd.mp hp) (by simp)
  have hqschar' : ∀ c, c ∈ qs ↔ ∃ x ∈ g.elements, cosetF g N x = c := by
    intro c
    rw [hqschar c]
    simp
  have hlk := quotientProd_lookup hv hvN hle hnp hallent hcover
  set q : RawGroup (Finset E) := ⟨qs, qp⟩ with hq
  have hqop : ∀ a ∈ g.elements, ∀ b ∈ g.elements,
      op q (cosetF g N a) (cosetF g N b) = cosetF g N (op g a b) := by
    intro a ha b hb
    show (alookup qp (cosetF g N a, cosetF g N b)).getD (cosetF g N a) =
      cosetF g N (op g a b)
    rw [hlk a ha b hb]
    rfl
  have heQ : cosetF g N e₀ ∈ qs :=
    (hqschar' _).mpr ⟨e₀, valid_e_mem hv, rfl⟩
  have haxioms : groupAxioms q := by
    refine ⟨⟨?_, ?_⟩, ⟨cosetF g N e₀, heQ, ?_⟩, ⟨cosetF g N e₀, heQ, ?_, ?_⟩, ?_⟩
    · intro kv hkv
      obtain ⟨a, ha, b, hb, hk, hval⟩ := hallent kv hkv
      refine ⟨?_, ?_, ?_⟩
      · rw [show kv.1.1 = cosetF g N a from congrArg Prod.fst hk]
        exact (hqschar' _).mpr ⟨a, ha, rfl⟩
      · rw [show kv.1.2 = cosetF g N b from congrArg Prod.snd hk]
        exact (hqschar' _).mpr ⟨b, hb, rfl⟩
      · rw [hval]
        exact (hqschar' _).mpr ⟨op g a b, valid_op_mem hv ha hb, rfl⟩
    · intro c1 hc1 c2 hc2
      obtain ⟨a, ha, rfl⟩ := (hqschar' c1).mp hc1
      obtain ⟨b, hb, rfl⟩ := (hqschar' c2).mp hc2
      rw [hlk a ha b hb]
      rfl
    · intro c hc
      obtain ⟨x, hx, rfl⟩ := (hqschar' c).mp hc
      constructor
      · rw [hlk e₀ (valid_e_mem hv) x hx, valid_one_op hv hx]
      · rw [hlk x hx e₀ (valid_e_mem hv), valid_op_one hv hx]
    · intro c hc
      obtain ⟨x, hx, rfl⟩ := (hqschar' c).mp hc
      constructor
      · rw [hlk e₀ (valid_e_mem hv) x hx, valid_one_op hv hx]
      · rw [hlk x hx e₀ (valid_e_mem hv), valid_op_one hv hx]
    · intro c hc
      obtain ⟨x, hx, rfl⟩ := (hqschar' c).mp hc
      obtain ⟨xi, hxig, hxxi, _⟩ := valid_two_sided_inv hv x hx
      refine ⟨cosetF g N xi, (hqschar' _).mpr ⟨xi, hxig, rfl⟩, ?_⟩
      rw [hlk x hx xi hxig, hxxi]
    · intro c1 hc1 c2 hc2 c3 hc3
      obtain ⟨a, ha, rfl⟩ := (hqschar' c1).mp hc1
      obtain ⟨b, hb, rfl⟩ := (hqschar' c2).mp hc2
      obtain ⟨c, hc, rfl⟩ := (hqschar' c3).mp hc3
      rw [hqop a ha b hb, hqop b hb c hc,
        hqop (op g a b) (valid_op_mem hv ha hb) c hc,
        hqop a ha (op g b c) (valid_op_mem hv hb hc),
        valid_assoc hv a ha b hb c hc]
  obtain ⟨pr, hpr⟩ := mkGroup_ok_of_axioms haxioms
  have hpr2 : mkGroup (⟨qs, qp⟩ : RawGroup (Finset E)) = Except.ok pr := hpr
  refine ⟨q, ?_, hqsnd, hqschar', hlk, pr, hpr⟩
  rw [quotient, is_normal_spec hv hle, decide_eq_true hnp]
  simp only [hqs, hqp]
  rw [hpr2]
  rfl

end QuotientProofs

/-- C3 witness: the quotient of the order-2 group by its trivial subgroup. -/
theorem c3_quotient_witness :
    (∀ g1 ∈ z2.elements, ∀ g1' ∈ z2.elements,
      ∀ g2 ∈ z2.elements, ∀ g2' ∈ z2.elements,
      cosetF z2 ⟨[0], [((0, 0), 0)]⟩ g1 = cosetF z2 ⟨[0], [((0, 0), 0)]⟩ g1' →
      cosetF z2 ⟨[0], [((0, 0), 0)]⟩ g2 = cosetF z2 ⟨[0], [((0, 0), 0)]⟩ g2' →
      cosetF z2 ⟨[0], [((0, 0), 0)]⟩ (op z2 g1 g2) =
        cosetF z2 ⟨[0], [((0, 0), 0)]⟩ (op z2 g1' g2'))
    ∧ ∃ q : RawGroup (Finset Nat),
      quotient z2 ⟨[0], [((0, 0), 0)]⟩ = some (Except.ok q)
      ∧ q.elements.Nodup
      ∧ (∀ c, c ∈ q.elements ↔
          ∃ x ∈ z2.elements, cosetF z2 ⟨[0], [((0, 0), 0)]⟩ x = c)
      ∧ (∀ a ∈ z2.elements, ∀ b ∈ z2.elements,
          alookup q.products (cosetF z2 ⟨[0], [((0, 0), 0)]⟩ a,
            cosetF z2 ⟨[0], [((0, 0), 0)]⟩ b) =
            some (cosetF z2 ⟨[0], [((0, 0), 0)]⟩ (op z2 a b)))
      ∧ ∃ pr, mkGroup q = Except.ok pr :=
  c3_quotient z2 ⟨[0], [((0, 0), 0)]⟩ 0 0 [(0, 0), (1, 1)] [(0, 0)]
    (by decide) (by decide) (by decide) (by decide)

/-- The list of raw commutators `self(inverse(a), inverse(b), a, b)` over
all ordered pairs, using the cached inverse table; `none` models the
raising paths. -/
def commutator_list (g : RawGroup E) : Option (List E) :=
  match mkGroup g with
  | Except.error _ => none
  | Except.ok (_, invs) =>
    travOpt (fun ab =>
      match alookup invs ab.1, alookup invs ab.2 with
      | some ia, some ib => groupCall g [ia, ib, ab.1, ab.2]
      | _, _ => none)
      (listProd g.elements g.elements)

/-- `Group.commutator_subgroup`: hand the raw (deduplicated) commutator set
directly to `subgroup` — no closure under the operation is computed. -/
def commutator_subgroup (g : RawGroup E) : Option (Except GroupErr (RawGroup E)) :=
  (commutator_list g).bind (fun cl => subgroupM g cl.dedup)

theorem groupCall_quad {g : RawGroup E} {e₀ : E} {invs : List (E × E)}
    (hv : mkGroup g = Except.ok (e₀, invs)) {a b c d : E}
    (ha : a ∈ g.elements) (hb : b ∈ g.elements) (hc : c ∈ g.elements)
    (hd : d ∈ g.elements) :
    groupCall g [a, b, c, d] = some (op g (op g (op g a b) c) d) := by
  rw [groupCall, hv]
  show gcallAux g e₀ [a, b, c, d] = some (op g (op g (op g a b) c) d)
  rw [gcallAux_all_mem hv [a, b, c, d] e₀ (valid_e_mem hv) (by
    intro x hx
    rcases List.mem_cons.mp hx with rfl | hx2
    · exact ha
    rcases List.mem_cons.mp hx2 with rfl | hx3
    · exact hb
    rcases List.mem_cons.mp hx3 with rfl | hx4
    · exact hc
    rw [List.mem_singleton] at hx4
    subst hx4
    exact hd)]
  rw [List.foldl_cons, List.foldl_cons, List.foldl_cons, List.foldl_cons,
    List.foldl_nil, valid_one_op hv ha]

/-- C2 supporting theorem: whenever `commutator_subgroup` succeeds, the
element set of the returned group is exactly the raw set of commutators
`a⁻¹ ∘ b⁻¹ ∘ a ∘ b` — not its closure under the group operation. -/
theorem c2_commutator_subgroup (g : RawGroup E) (e₀ : E) (invs : List (E × E))
    (hv : mkGroup g = Except.ok (e₀, invs)) (sub : RawGroup E)
    (hres : commutator_subgroup g = some (Except.ok sub)) :
    ∀ z, z ∈ sub.elements ↔ ∃ a ∈ g.elements, ∃ b ∈ g.elements, ∃ ia ib : E,
      alookup invs a = some ia ∧ alookup invs b = some ib ∧
      z = op g (op g (op g ia ib) a) b := by
  obtain ⟨cl, hcl, hsubM⟩ := Option.bind_eq_some.mp hres
  obtain ⟨hsub, _, _⟩ := subgroupM_rel hsubM
  have hclval : commutator_list g =
      some ((listProd g.elements g.elements).map (fun ab =>
        op g (op g (op g ((alookup invs ab.1).getD ab.1)
          ((alookup invs ab.2).getD ab.2)) ab.1) ab.2)) := by
    rw [commutator_list, hv]
    refine travOpt_mapf ?_
    intro ab hab
    obtain ⟨hab1, hab2⟩ := mem_listProd.mp hab
    obtain ⟨ia, hia, hiag, _, _⟩ := valid_invs_lookup hv ab.1 hab1
    obtain ⟨ib, hib, hibg, _, _⟩ := valid_invs_lookup hv ab.2 hab2
    simp only [hia, hib]
    rw [groupCall_quad hv hiag hibg hab1 hab2]
    rfl
  rw [hclval] at hcl
  have hcl2 : cl = (listProd g.elements g.elements).map (fun ab =>
      op g (op g (op g ((alookup invs ab.1).getD ab.1)
        ((alookup invs ab.2).getD ab.2)) ab.1) ab.2) := (Option.some.inj hcl).symm
  intro z
  rw [hsub]
  show z ∈ cl.dedup ↔ _
  rw [List.mem_dedup, hcl2, List.mem_map]
  constructor
  · rintro ⟨ab, hab, rfl⟩
    obtain ⟨hab1, hab2⟩ := mem_listProd.mp hab
    obtain ⟨ia, hia, _, _, _⟩ := valid_invs_lookup hv ab.1 hab1
    obtain ⟨ib, hib, _, _, _⟩ := valid_invs_lookup hv ab.2 hab2
    refine ⟨ab.1, hab1, ab.2, hab2, ia, ib, hia, hib, ?_⟩
    rw [hia, hib]
    rfl
  · rintro ⟨a, ha, b, hb, ia, ib, hia, hib, rfl⟩
    refine ⟨(a, b), mem_listProd.mpr ⟨ha, hb⟩, ?_⟩
    show op g (op g (op g ((alookup invs a).getD a) ((alookup invs b).getD b)) a) b
      = _
    rw [hia, hib]
    rfl

/-- C2 witness: on the cyclic group of order 2 every commutator is the
identity, so the returned carrier is the singleton raw commutator set. -/
theorem c2_commutator_subgroup_witness :
    0 ∈ (⟨[0], [((0, 0), 0)]⟩ : RawGroup Nat).elements ↔
      ∃ a ∈ z2.elements, ∃ b ∈ z2.elements, ∃ ia ib : Nat,
        alookup [(0, 0), (1, 1)] a = some ia ∧ alookup [(0, 0), (1, 1)] b = some ib ∧
        0 = op z2 (op z2 (op z2 ia ib) a) b :=
  c2_commutator_subgroup z2 0 [(0, 0), (1, 1)] (by decide)
    ⟨[0], [((0, 0), 0)]⟩ (by decide) 0

end PyAlg
